import Mathlib

/-!
Verification of the corruption engine of `gecko` (`src/gecko/corruptor.py`).

Shallow embedding conventions:
* a Python/pandas string is a `List Char` (`Str`), a `pd.Series` of strings is a
  `List Str` (`Series`); the pandas integer index `0..n-1` is positional;
* `np.random.Generator` is modelled by `Rng`, a queue of rational draws in
  `[0, 1)`; `rng.random(size=n)` pops `n` draws; `rng.choice(l, size=n)` pops
  `n` draws and maps each `v` to `l[⌊len l * v⌋]`, which is how a uniform
  choice consumes the stream; an exhausted queue yields `0`, and the
  wellformedness predicate `Rng.WF` states that every queued draw lies in
  `[0, 1)`;
* fallible code (`ValueError`) is `Except String`;
* the vectorized pandas idiom "group rows by their shared drawn index and
  apply one masked assignment per group" writes each row exactly once, so it
  is embedded as the equivalent per-row map that consumes the drawn values in
  row order.
-/

/-- A Python string: a sequence of unicode code points. -/
abbrev Str := List Char

/-- A `pd.Series` of strings with positional index. -/
abbrev Series := List Str

/-- Model of `np.random.Generator`: a queue of uniform draws in `[0, 1)`. -/
structure Rng where
  floats : List ℚ
deriving DecidableEq, Repr

deriving instance DecidableEq for Except

/-- Pop one uniform draw (an exhausted queue yields `0`). -/
def Rng.next (r : Rng) : ℚ × Rng :=
  match r.floats with
  | [] => (0, ⟨[]⟩)
  | v :: rest => (v, ⟨rest⟩)

/-- Pop `n` uniform draws, in order (models `rng.random(size=n)`). -/
def Rng.nextN (r : Rng) : Nat → List ℚ × Rng
  | 0 => ([], r)
  | n + 1 =>
    let (v, r') := r.next
    let (vs, r'') := r'.nextN n
    (v :: vs, r'')

/-- Wellformedness: every queued draw lies in `[0, 1)`. -/
def Rng.WF (r : Rng) : Prop := ∀ v ∈ r.floats, 0 ≤ v ∧ v < 1

/-- `⌊m * v⌋` as a natural number: how a uniform draw `v` is turned into a
random index below `m` (`np.floor(m * arr_rng_vals).astype(int)`). -/
def drawIdx (m : Nat) (v : ℚ) : Nat := (⌊(m : ℚ) * v⌋).toNat

/-- Uniform choice from a list (models one element of `rng.choice(l, size=k)`).
`numpy` raises on an empty list; the default is unreachable for the non-empty
charsets and candidate sets the corruptors are built with. -/
def chooseFrom (l : List Char) (v : ℚ) : Char := l.getD (drawIdx l.length v) 'a'

theorem Rng.next_wf {r : Rng} (h : r.WF) :
    (0 ≤ r.next.1 ∧ r.next.1 < 1) ∧ r.next.2.WF := by
  cases r with
  | mk fl =>
    cases fl with
    | nil => exact ⟨⟨le_refl 0, one_pos⟩, fun v hv => absurd hv (List.not_mem_nil v)⟩
    | cons v rest =>
      refine ⟨h v (List.mem_cons_self v rest), fun w hw => h w ?_⟩
      exact List.mem_cons_of_mem v hw

theorem Rng.nextN_wf {r : Rng} (h : r.WF) (n : Nat) :
    (∀ v ∈ (r.nextN n).1, 0 ≤ v ∧ v < 1) ∧ (r.nextN n).2.WF := by
  induction n generalizing r with
  | zero => exact ⟨fun v hv => absurd hv (List.not_mem_nil v), h⟩
  | succ n ih =>
    obtain ⟨hv, hr⟩ := Rng.next_wf h
    obtain ⟨hvs, hr'⟩ := ih hr
    refine ⟨fun v hv' => ?_, ?_⟩
    · simp only [Rng.nextN] at hv'
      rcases List.mem_cons.mp hv' with h1 | h2
      · exact h1 ▸ hv
      · exact hvs v h2
    · simpa [Rng.nextN] using hr'

theorem Rng.nextN_length (r : Rng) (n : Nat) : (r.nextN n).1.length = n := by
  induction n generalizing r with
  | zero => rfl
  | succ n ih => simp [Rng.nextN, ih]

theorem drawIdx_lt {m : Nat} {v : ℚ} (hm : 0 < m) (_h0 : 0 ≤ v) (h1 : v < 1) :
    drawIdx m v < m := by
  have hmv : (m : ℚ) * v < m := by
    have := mul_lt_mul_of_pos_left h1 (show (0:ℚ) < m by exact_mod_cast hm)
    simpa using this
  have hfloor : ⌊(m : ℚ) * v⌋ < (m : ℤ) := by
    have := Int.floor_le ((m : ℚ) * v)
    exact_mod_cast Int.floor_lt.mpr (by exact_mod_cast hmv)
  have : (⌊(m : ℚ) * v⌋).toNat < m := by
    omega
  exact this

theorem chooseFrom_mem {l : List Char} {v : ℚ} (hl : l ≠ []) (h0 : 0 ≤ v) (h1 : v < 1) :
    chooseFrom l v ∈ l := by
  have hlen : 0 < l.length := List.length_pos.mpr hl
  have hidx := drawIdx_lt hlen h0 h1
  unfold chooseFrom
  rw [List.getD_eq_getElem l 'a' hidx]
  exact List.getElem_mem hidx

/-! ## Elementary per-string edit operations

These are the per-row effects of the masked vectorized assignments in
`with_insert`, `with_delete`, `with_transpose` and `with_substitute`. -/

/-- `s.str[:i] + c + s.str[i:]`: insert `c` at position `i`. -/
def insert1 (s : Str) (i : Nat) (c : Char) : Str := s.take i ++ [c] ++ s.drop i

/-- `s.str.slice_replace(i, i+1, "")`: delete the character at position `i`. -/
def delete1 (s : Str) (i : Nat) : Str := s.take i ++ s.drop (i + 1)

/-- `s.str[:i] + c + s.str[i+1:]`: replace the character at position `i`. -/
def substitute1 (s : Str) (i : Nat) (c : Char) : Str :=
  s.take i ++ [c] ++ s.drop (i + 1)

/-- `s.str[:i] + s.str[i+1] + s.str[i] + s.str[i+2:]`: swap the characters at
positions `i` and `i+1`. -/
def transpose1 (s : Str) (i : Nat) : Str :=
  s.take i ++ [s.getD (i + 1) 'a', s.getD i 'a'] ++ s.drop (i + 2)

theorem insert1_length (s : Str) (i : Nat) (c : Char) :
    (insert1 s i c).length = s.length + 1 := by
  simp [insert1]
  omega

theorem delete1_length {s : Str} {i : Nat} (h : i < s.length) :
    (delete1 s i).length = s.length - 1 := by
  simp [delete1]
  omega

theorem substitute1_length {s : Str} {i : Nat} (h : i < s.length) :
    (substitute1 s i c).length = s.length := by
  simp [substitute1]
  omega

theorem transpose1_length {s : Str} {i : Nat} (h : i + 1 < s.length) :
    (transpose1 s i).length = s.length := by
  simp [transpose1]
  omega

theorem transpose1_perm {s : Str} {i : Nat} (h : i + 1 < s.length) :
    (transpose1 s i).Perm s := by
  have hi : i < s.length := Nat.lt_of_succ_lt h
  have hs : s = s.take i ++ s[i] :: s[i+1] :: s.drop (i + 2) := by
    conv_lhs => rw [← List.take_append_drop i s]
    congr 1
    rw [List.drop_eq_getElem_cons hi]
    congr 1
    rw [List.drop_eq_getElem_cons h]
  have hd1 : s.getD (i + 1) 'a' = s[i+1] := List.getD_eq_getElem s 'a' h
  have hd0 : s.getD i 'a' = s[i] := List.getD_eq_getElem s 'a' hi
  rw [transpose1, hd1, hd0]
  conv_rhs => rw [hs]
  rw [List.append_assoc]
  refine List.Perm.append_left _ ?_
  exact List.Perm.swap _ _ _

/-! ## Per-row threading of the vectorized edit corruptors

`with_delete`, `with_transpose` and `with_substitute` restrict the series to
the strings meeting a minimum length, draw one random value per such string
(in row order), and write each edited string back by positional index.
`mapElig` is that per-row semantics: rows meeting the minimum length consume
the next draw, others are passed through. -/

def mapElig (m : Nat) (f : Str → ℚ → Str) : Series → List ℚ → Series
  | [], _ => []
  | s :: rest, vs =>
    if m ≤ s.length then f s (vs.headD 0) :: mapElig m f rest vs.tail
    else s :: mapElig m f rest vs

/-- Like `mapElig` for corruptors that draw an index stream and a character
stream (`with_insert`, `with_substitute`): each eligible row consumes one
value from each stream. -/
def mapElig2 (m : Nat) (f : Str → ℚ → ℚ → Str) : Series → List ℚ → List ℚ → Series
  | [], _, _ => []
  | s :: rest, vs, ws =>
    if m ≤ s.length then
      f s (vs.headD 0) (ws.headD 0) :: mapElig2 m f rest vs.tail ws.tail
    else s :: mapElig2 m f rest vs ws

theorem mapElig_length (m : Nat) (f : Str → ℚ → Str) :
    ∀ (srs : Series) (vs : List ℚ), (mapElig m f srs vs).length = srs.length := by
  intro srs
  induction srs with
  | nil => intro vs; rfl
  | cons s rest ih =>
    intro vs
    by_cases h : m ≤ s.length <;> simp [mapElig, h, ih]

theorem mapElig2_length (m : Nat) (f : Str → ℚ → ℚ → Str) :
    ∀ (srs : Series) (vs ws : List ℚ),
      (mapElig2 m f srs vs ws).length = srs.length := by
  intro srs
  induction srs with
  | nil => intro vs ws; rfl
  | cons s rest ih =>
    intro vs ws
    by_cases h : m ≤ s.length <;> simp [mapElig2, h, ih]

theorem mapElig_getD (m : Nat) (f : Str → ℚ → Str) (P : ℚ → Prop) (hP0 : P 0) :
    ∀ (srs : Series) (vs : List ℚ), (∀ v ∈ vs, P v) → ∀ j, j < srs.length →
      ((m ≤ (srs.getD j []).length →
        ∃ v, P v ∧ (mapElig m f srs vs).getD j [] = f (srs.getD j []) v) ∧
       (¬ m ≤ (srs.getD j []).length →
        (mapElig m f srs vs).getD j [] = srs.getD j [])) := by
  intro srs
  induction srs with
  | nil => intro vs _ j hj; simp at hj
  | cons s rest ih =>
    intro vs hvs j hj
    have hPhead : P (vs.headD 0) := by
      cases vs with
      | nil => exact hP0
      | cons v vt => exact hvs v (List.mem_cons_self v vt)
    have hvt : ∀ v ∈ vs.tail, P v := fun v hv =>
      hvs v (List.mem_of_mem_tail hv)
    cases j with
    | zero =>
      by_cases h : m ≤ s.length
      · exact ⟨fun _ => ⟨vs.headD 0, hPhead, by simp [mapElig, h]⟩,
          fun hc => absurd h (by simpa using hc)⟩
      · exact ⟨fun hc => absurd hc (by simpa using h), fun _ => by simp [mapElig, h]⟩
    | succ j =>
      have hj' : j < rest.length := by simpa using hj
      by_cases h : m ≤ s.length
      · have := ih vs.tail hvt j hj'
        simpa [mapElig, h] using this
      · have := ih vs hvs j hj'
        simpa [mapElig, h] using this

theorem mapElig2_getD (m : Nat) (f : Str → ℚ → ℚ → Str) (P : ℚ → Prop) (hP0 : P 0) :
    ∀ (srs : Series) (vs ws : List ℚ), (∀ v ∈ vs, P v) → (∀ w ∈ ws, P w) →
      ∀ j, j < srs.length →
      ((m ≤ (srs.getD j []).length →
        ∃ v w, P v ∧ P w ∧
          (mapElig2 m f srs vs ws).getD j [] = f (srs.getD j []) v w) ∧
       (¬ m ≤ (srs.getD j []).length →
        (mapElig2 m f srs vs ws).getD j [] = srs.getD j [])) := by
  intro srs
  induction srs with
  | nil => intro vs ws _ _ j hj; simp at hj
  | cons s rest ih =>
    intro vs ws hvs hws j hj
    have hPv : P (vs.headD 0) := by
      cases vs with
      | nil => exact hP0
      | cons v vt => exact hvs v (List.mem_cons_self v vt)
    have hPw : P (ws.headD 0) := by
      cases ws with
      | nil => exact hP0
      | cons w wt => exact hws w (List.mem_cons_self w wt)
    have hvt : ∀ v ∈ vs.tail, P v := fun v hv => hvs v (List.mem_of_mem_tail hv)
    have hwt : ∀ w ∈ ws.tail, P w := fun w hw => hws w (List.mem_of_mem_tail hw)
    cases j with
    | zero =>
      by_cases h : m ≤ s.length
      · exact ⟨fun _ => ⟨vs.headD 0, ws.headD 0, hPv, hPw, by simp [mapElig2, h]⟩,
          fun hc => absurd h (by simpa using hc)⟩
      · exact ⟨fun hc => absurd hc (by simpa using h), fun _ => by simp [mapElig2, h]⟩
    | succ j =>
      have hj' : j < rest.length := by simpa using hj
      by_cases h : m ≤ s.length
      · have := ih vs.tail ws.tail hvt hwt j hj'
        simpa [mapElig2, h] using this
      · have := ih vs ws hvs hws j hj'
        simpa [mapElig2, h] using this

/-! ## The elementary corruption functions -/

/-- `with_insert(charset, rng)`: every row draws an insertion index in
`[0, len]` (`np.floor((len + 1) * v)`) and a random charset character, and the
character is spliced in. -/
def corruptInsert (charset : List Char) (srs : Series) (rng : Rng) : Series × Rng :=
  let n := srs.length
  let (vs, rng1) := rng.nextN n
  let (ws, rng2) := rng1.nextN n
  (mapElig2 0 (fun s v w => insert1 s (drawIdx (s.length + 1) v) (chooseFrom charset w))
    srs vs ws, rng2)

/-- `with_delete(rng)`: rows of length ≥ 1 draw a deletion index in
`[0, len - 1]` (`np.floor(len * v)`) and lose that character; if no row has
length ≥ 1 the input series is returned before any draw. -/
def corruptDelete (srs : Series) (rng : Rng) : Series × Rng :=
  let elig := srs.countP (fun x => decide (1 ≤ x.length))
  if elig = 0 then (srs, rng)
  else
    let (vs, rng') := rng.nextN elig
    (mapElig 1 (fun s v => delete1 s (drawIdx s.length v)) srs vs, rng')

/-- `with_transpose(rng)`: rows of length ≥ 2 draw an index in `[0, len - 2]`
(`np.floor((len - 1) * v)`) and swap the characters at that index and its
right neighbor; if no row has length ≥ 2 the input series is returned before
any draw. -/
def corruptTranspose (srs : Series) (rng : Rng) : Series × Rng :=
  let elig := srs.countP (fun x => decide (2 ≤ x.length))
  if elig = 0 then (srs, rng)
  else
    let (vs, rng') := rng.nextN elig
    (mapElig 2 (fun s v => transpose1 s (drawIdx (s.length - 1) v)) srs vs, rng')

/-- `with_substitute(charset, rng)`: rows of length ≥ 1 draw an index in
`[0, len - 1]` and a random charset character and have that position
overwritten; if no row has length ≥ 1 the input series is returned before any
draw. -/
def corruptSubstitute (charset : List Char) (srs : Series) (rng : Rng) : Series × Rng :=
  let elig := srs.countP (fun x => decide (1 ≤ x.length))
  if elig = 0 then (srs, rng)
  else
    let (vs, rng1) := rng.nextN elig
    let (ws, rng2) := rng1.nextN elig
    (mapElig2 1 (fun s v w => substitute1 s (drawIdx s.length v) (chooseFrom charset w))
      srs vs ws, rng2)

/-- `with_noop()`: returns the input series as-is. The Python inner function
takes no random source at all; the `Rng` argument is only for the uniform
corruption-function signature and is returned untouched. -/
def corruptNoop (srs : Series) (rng : Rng) : Series × Rng := (srs, rng)

/-- `with_missing_value(value, "all")`: a brand-new series holding `value` in
every row. -/
def missingAll (value : Str) (srs : Series) : Series :=
  List.replicate srs.length value

/-- `with_missing_value(value, "empty")`: rows equal to the empty string are
replaced by `value`. -/
def missingEmpty (value : Str) (srs : Series) : Series :=
  srs.map (fun s => if s = [] then value else s)

/-- `with_missing_value(value, "blank")`: rows that are empty after stripping
whitespace are replaced by `value`. -/
def missingBlank (value : Str) (srs : Series) : Series :=
  srs.map (fun s => if s.all Char.isWhitespace then value else s)

/-! ## String searching (`str.find`, `str.startswith`, `str.endswith`) -/

/-- `pat` occurs in `s` at position `i`. -/
def occursAt (s pat : Str) (i : Nat) : Bool :=
  decide (i + pat.length ≤ s.length ∧ (s.drop i).take pat.length = pat)

/-- Scan positions `start, start+1, ...` (at most `fuel` of them) for the first
one satisfying `p`: the scanning loop of Python's `str.find`. -/
def findFirstFrom (p : Nat → Bool) : Nat → Nat → Option Nat
  | 0, _ => none
  | fuel + 1, start => if p start then some start else findFirstFrom p fuel (start + 1)

/-- Python `s.find(pat)` as an `Option`: the first occurrence position. -/
def strFindOpt (s pat : Str) : Option Nat :=
  findFirstFrom (occursAt s pat) (s.length + 1) 0

/-- Python `s.find(pat)`: first occurrence position, `-1` if absent. This is
what `srs.str.find(rule.pattern)` yields per row. -/
def strFindInt (s pat : Str) : Int :=
  match strFindOpt s pat with
  | some i => (i : Int)
  | none => -1

/-- `s.str.startswith(pat)`. -/
def startsWithB (s pat : Str) : Bool := decide (s.take pat.length = pat)

/-- `s.str.endswith(pat)`. -/
def endsWithB (s pat : Str) : Bool :=
  decide (pat.length ≤ s.length ∧ s.drop (s.length - pat.length) = pat)

theorem findFirstFrom_eq_some {p : Nat → Bool} :
    ∀ (fuel start i : Nat), findFirstFrom p fuel start = some i ↔
      (start ≤ i ∧ i < start + fuel ∧ p i = true ∧
        ∀ k, start ≤ k → k < i → p k = false) := by
  intro fuel
  induction fuel with
  | zero => intro start i; simp [findFirstFrom]; omega
  | succ fuel ih =>
    intro start i
    rw [findFirstFrom]
    by_cases h : p start = true
    · rw [if_pos h]
      constructor
      · intro h0
        injection h0 with h0
        subst h0
        exact ⟨le_refl _, by omega, h, fun k hk1 hk2 => by omega⟩
      · rintro ⟨h1, _, _, h4⟩
        rcases Nat.eq_or_lt_of_le h1 with rfl | hlt
        · rfl
        · exact absurd h (by simp [h4 start (le_refl _) hlt])
    · have h' : p start = false := by simpa using h
      rw [if_neg h, ih (start + 1) i]
      constructor
      · rintro ⟨h1, h2, h3, h4⟩
        refine ⟨by omega, by omega, h3, fun k hk1 hk2 => ?_⟩
        rcases Nat.eq_or_lt_of_le hk1 with rfl | hk1'
        · exact h'
        · exact h4 k hk1' hk2
      · rintro ⟨h1, h2, h3, h4⟩
        have : start < i := by
          rcases Nat.eq_or_lt_of_le h1 with rfl | hlt
          · exact absurd h3 (by simp [h'])
          · exact hlt
        exact ⟨by omega, by omega, h3, fun k hk1 hk2 => h4 k (by omega) hk2⟩

theorem strFindOpt_eq_some {s pat : Str} {i : Nat} :
    strFindOpt s pat = some i ↔
      (occursAt s pat i = true ∧ ∀ k < i, occursAt s pat k = false) := by
  rw [strFindOpt, findFirstFrom_eq_some]
  constructor
  · rintro ⟨_, _, h3, h4⟩
    exact ⟨h3, fun k hk => h4 k (Nat.zero_le k) hk⟩
  · rintro ⟨h1, h2⟩
    have hle : i + pat.length ≤ s.length := by
      have := of_decide_eq_true h1
      rw [occursAt] at h1
      exact (of_decide_eq_true h1).1
    exact ⟨Nat.zero_le i, by omega, h1, fun k _ hk => h2 k hk⟩

theorem occursAt_zero {s pat : Str} : occursAt s pat 0 = startsWithB s pat := by
  rw [occursAt, startsWithB]
  by_cases h : s.take pat.length = pat
  · have hlen : pat.length ≤ s.length := by
      have := congrArg List.length h
      simp at this
      omega
    simp [h, hlen]
  · simp [h]

/-! ## The phonetic rule engine (`with_phonetic_replacement_table`) -/

/-- A parsed phonetic replacement rule (`_PhoneticReplacementRule`): pattern,
replacement and flag string. `_validate_flags` guarantees every flag character
is one of `^`, `$`, `_` (an empty or missing flag column becomes `"$^_"`
sorted, i.e. all three). -/
structure PhoneticRule where
  pattern : Str
  replacement : Str
  flags : Str
deriving DecidableEq, Repr

/-- The per-row flag string a rule generates (first loop of `_corrupt`,
lines 287-315): each of `^`, `$`, `_` is appended, in that fixed order, when
the rule allows it and the corresponding mask — computed from
`srs.str.find(rule.pattern)`, the FIRST occurrence index or `-1` — holds. -/
def phoneticFlags (r : PhoneticRule) (s : Str) : Str :=
  let idx := strFindInt s r.pattern
  (if '^' ∈ r.flags ∧ idx = 0 then ['^'] else []) ++
  (if '$' ∈ r.flags ∧ idx + (r.pattern.length : Int) = (s.length : Int) then ['$'] else []) ++
  (if '_' ∈ r.flags ∧ 0 < idx ∧ idx + (r.pattern.length : Int) < (s.length : Int)
    then ['_'] else [])

/-- Per-row substitution probability: `1/k` for a row with `k` rules whose
flag string is non-empty, `0` for a row with none (lines 315-320). -/
def phoneticProb (rules : List PhoneticRule) (s : Str) : ℚ :=
  let k := rules.countP (fun r => decide (phoneticFlags r s ≠ []))
  if k = 0 then 0 else 1 / (k : ℚ)

/-- `srs.str.replace("^" + pat, repl, n=1, regex=True)` on a row: replace a
leading occurrence. -/
def replaceStart (s pat repl : Str) : Str :=
  if startsWithB s pat then repl ++ s.drop pat.length else s

/-- `srs.str.replace(pat + "$", repl, n=1, regex=True)` on a row: replace a
trailing occurrence. -/
def replaceEnd (s pat repl : Str) : Str :=
  if endsWithB s pat then s.take (s.length - pat.length) ++ repl else s

/-- `srs.str.replace("^(.+)pat(.+)$", "\1repl\2", n=1, regex=True)` on a row:
the greedy first group makes this replace the LAST occurrence that has at
least one character on each side; no match leaves the row unchanged. -/
def replaceMid (s pat repl : Str) : Str :=
  let cands := (List.range s.length).filter
    (fun i => decide (1 ≤ i) && occursAt s pat i && decide (i + pat.length + 1 ≤ s.length))
  match cands.getLast? with
  | some i => s.take i ++ repl ++ s.drop (i + pat.length)
  | none => s

/-- One flag's replacement action on one row (lines 362-382). The final `else`
is `_raise_unknown_flag`, unreachable for validated rules. -/
def applyFlagRepl (f : Char) (r : PhoneticRule) (s : Str) : Str :=
  if f = '^' then replaceStart s r.pattern r.replacement
  else if f = '$' then replaceEnd s r.pattern r.replacement
  else if f = '_' then replaceMid s r.pattern r.replacement
  else s

/-- The row mask a flag selects on the current series (lines 342-352): `^` is
`startswith`, `$` is `endswith`, `_` is neither-start-nor-end. The final
`else` is `_raise_unknown_flag`, unreachable for validated rules. -/
def flagMask (f : Char) (pat : Str) (s : Str) : Bool :=
  if f = '^' then startsWithB s pat
  else if f = '$' then endsWithB s pat
  else if f = '_' then !startsWithB s pat && !endsWithB s pat
  else false

def zipW3 (f : α → β → γ → δ) : List α → List β → List γ → List δ
  | a :: as, b :: bs, c :: cs => f a b c :: zipW3 f as bs cs
  | _, _, _ => []

/-- Swap two positions of a list (no-op when either is out of bounds). -/
def listSwap (l : List Char) (i j : Nat) : List Char :=
  if i < l.length ∧ j < l.length then (l.set i (l.getD j 'a')).set j (l.getD i 'a') else l

/-- Fisher-Yates steps of `rng.shuffle`: position `i` is swapped with a random
position in `[0, i]`, for `i` from `len - 1` down to `1`; each step consumes
one draw. -/
def shuffleAux : List Char → Rng → Nat → List Char × Rng
  | l, rng, 0 => (l, rng)
  | l, rng, i + 1 =>
    let (v, rng') := rng.next
    let j := drawIdx (i + 2) v
    shuffleAux (listSwap l (i + 1) j) rng' i

/-- `rng.shuffle(list(rule.flags))`: in-place Fisher-Yates shuffle; lists of
length ≤ 1 consume no draws. -/
def shuffleList (l : List Char) (rng : Rng) : List Char × Rng :=
  if l.length ≤ 1 then (l, rng) else shuffleAux l rng (l.length - 1)

/-- One iteration of the flag loop (lines 339-385): rows that are candidates,
match the current flag on the current series, and have not been modified yet
get this flag's replacement; those rows are then marked modified. The
`mask.sum() == 0 → continue` short-circuit is semantically the identity. -/
def phoneticFlagStep (r : PhoneticRule) (cand : List Bool) (f : Char)
    (st : Series × List Bool) : Series × List Bool :=
  let cur := zipW3 (fun (c : Bool) (s : Str) (m : Bool) => c && flagMask f r.pattern s && !m)
    cand st.1 st.2
  (List.zipWith (fun (c : Bool) (s : Str) => if c then applyFlagRepl f r s else s) cur st.1,
   List.zipWith (fun (m c : Bool) => m || c) st.2 cur)

/-- One iteration of the rule loop (lines 325-385): draw one uniform value per
row, build the candidate mask from the precomputed flag strings and
probabilities (both functions of the ORIGINAL series), shuffle the rule's flag
string, and run the flag loop. -/
def phoneticRuleStep (orig : Series) (rules : List PhoneticRule)
    (st : Series × List Bool × Rng) (r : PhoneticRule) : Series × List Bool × Rng :=
  let (out, md, rng) := st
  let (vs, rng1) := rng.nextN orig.length
  let cand := List.zipWith
    (fun s v => decide (v < phoneticProb rules s) && decide (phoneticFlags r s ≠ [])) orig vs
  let (shuffled, rng2) := shuffleList r.flags rng1
  let (out', md') := shuffled.foldl (fun acc f => phoneticFlagStep r cand f acc) (out, md)
  (out', md', rng2)

/-- The corruption function built by `with_phonetic_replacement_table`: the
flag dictionary and probabilities come from the input series; the rule loop
then rewrites a copy, tracking modified rows. -/
def corruptPhonetic (rules : List PhoneticRule) (srs : Series) (rng : Rng) : Series × Rng :=
  let st := rules.foldl (phoneticRuleStep srs rules)
    (srs, List.replicate srs.length false, rng)
  (st.1, st.2.2)

/-- Modelled from the spec's words, for comparison with `phoneticFlags` (claim
C5): "the string's eligibility flags are exactly the intersection of the
rule's allowed flags with the set of positions at which the pattern occurs in
the string — start flag when some occurrence is a prefix, end flag when some
occurrence is a suffix, middle flag when some occurrence lies strictly between
start and end". -/
def specPhoneticFlags (r : PhoneticRule) (s : Str) : Str :=
  (if '^' ∈ r.flags ∧ startsWithB s r.pattern then ['^'] else []) ++
  (if '$' ∈ r.flags ∧ endsWithB s r.pattern then ['$'] else []) ++
  (if '_' ∈ r.flags ∧ ((List.range s.length).any fun i =>
      decide (0 < i) && occursAt s r.pattern i && decide (i + r.pattern.length < s.length))
    then ['_'] else [])

/-! ## The keyboard-typo model (`with_cldr_keymap_file`) -/

/-- Deduplicate keeping the first occurrence of each element, in order: the
order in which `pd.Series.unique()` returns values. -/
def uniqFirst [DecidableEq α] (l : List α) : List α :=
  l.foldl (fun acc x => if x ∈ acc then acc else acc ++ [x]) []

def insertSortedChar (x : Char) : List Char → List Char
  | [] => [x]
  | y :: ys => if x ≤ y then x :: y :: ys else y :: insertSortedChar x ys

/-- `sorted(set)` on characters (insertion sort). -/
def sortChars (l : List Char) : List Char := l.foldr insertSortedChar []

/-- Python dict assignment `d[c] = v`: overwrite in place or append. -/
def assocSet (l : List (Char × List Char)) (c : Char) (v : List Char) :
    List (Char × List Char) :=
  if l.any (fun p => p.1 = c) then l.map (fun p => if p.1 = c then (c, v) else p)
  else l ++ [(c, v)]

/-- A keyboard position: (row, column, shift level). -/
abbrev KbPos := Nat × Nat × Nat

/-- `kb_char_to_candidates_dict` (lines 119-150): for every grid position
holding a character, collect the distinct characters of its neighboring
positions, excluding empty cells and the character itself; store the sorted
result only when non-empty. `positions` is the grid iteration order of
`np.nditer`; `kbmap` maps a position to its character (`none` = empty cell);
`neighbors` is `get_neighbor_kb_pos_for` from `gecko.cldr`, a module not in
the sources, kept abstract. -/
def buildCandidates (positions : List KbPos) (kbmap : KbPos → Option Char)
    (neighbors : KbPos → List KbPos) : List (Char × List Char) :=
  positions.foldl (fun acc p =>
    match kbmap p with
    | none => acc
    | some c =>
      let cands := sortChars (uniqFirst (((neighbors p).filterMap kbmap).filter (· ≠ c)))
      if cands = [] then acc else assocSet acc c cands) []

/-- The per-unique-character replacement draw (lines 174-185): rows whose
selected character is `c` consume one draw each, in row order, and receive a
uniform choice from `c`'s candidate string. -/
def assignRepl (c : Char) (cs : List Char) :
    List (Option Char) → List (Option Char) → Rng → List (Option Char) × Rng
  | t :: ts, r :: rs, rng =>
    if t = some c then
      let (v, rng') := rng.next
      let (rest, rng'') := assignRepl c cs ts rs rng'
      (some (chooseFrom cs v) :: rest, rng'')
    else
      let (rest, rng') := assignRepl c cs ts rs rng
      (r :: rest, rng')
  | _, _, rng => ([], rng)

/-- `arr_rng_typo_indices` (line 160): one position per row,
`np.floor(len * v)`. -/
def keymapIdxs (srs : Series) (vs : List ℚ) : List Nat :=
  List.zipWith (fun (s : Str) v => drawIdx s.length v) srs vs

/-- `srs_typo_chars` (lines 162-168): the character at each row's selected
position; `none` is pandas `NaN` (empty or too-short row). -/
def keymapTypos (srs : Series) (idxs : List Nat) : List (Option Char) :=
  List.zipWith (fun (s : Str) i => s[i]?) srs idxs

/-- One step of the unique-character loop (lines 174-185): `NaN` and
characters absent from the candidate dictionary are skipped, the rest draw
replacements via `assignRepl`. -/
def keymapCharStep (cand : List (Char × List Char)) (typos : List (Option Char))
    (acc : List (Option Char) × Rng) (t : Option Char) : List (Option Char) × Rng :=
  match t with
  | none => acc
  | some c =>
    match cand.lookup c with
    | none => acc
    | some cs => assignRepl c cs typos acc.1 acc.2

/-- The final splice (lines 187-195): rows with a replacement become
`s[:i] + repl + s[i+1:]`, rows with `NaN` replacement are untouched. -/
def keymapSplice (s : Str) (i : Nat) (rep : Option Char) : Str :=
  match rep with
  | some c' => s.take i ++ [c'] ++ s.drop (i + 1)
  | none => s

/-- The corruption function built by `with_cldr_keymap_file` (lines 152-197):
one position per row, the character there, replacement draws grouped by
unique selected character in first-appearance order, and the final splice. -/
def corruptKeymap (cand : List (Char × List Char)) (srs : Series) (rng : Rng) :
    Series × Rng :=
  let n := srs.length
  let (vs, rng1) := rng.nextN n
  let idxs := keymapIdxs srs vs
  let typos := keymapTypos srs idxs
  let (repls, rng2) := (uniqFirst typos).foldl (keymapCharStep cand typos)
    (List.replicate n (none : Option Char), rng1)
  (zipW3 keymapSplice srs idxs repls, rng2)

/-! ## The replacement-table engine (`with_replacement_table`) -/

/-- `srs.str.contains(source)` on a row (literal containment). -/
def containsSub (s pat : Str) : Bool := (strFindOpt s pat).isSome

/-- `s.str.replace(source, target, n=1)`: replace the first (leftmost)
occurrence. -/
def replaceFirst (s pat tgt : Str) : Str :=
  match strFindOpt s pat with
  | some i => s.take i ++ tgt ++ s.drop (i + pat.length)
  | none => s

/-- Per-row substitution probability (lines 442-453): `1/k` for a row
containing `k` of the table's unique source values, `0` otherwise. -/
def replacementProb (uniqSources : List Str) (s : Str) : ℚ :=
  let k := uniqSources.countP (fun src => containsSub s src)
  if k = 0 then 0 else 1 / (k : ℚ)

/-- One target draw per masked row, in row order
(`rng.choice(replacement_options, size=replacement_count)`). -/
def assignTargetDraws (source : Str) (options : List Str) :
    List Bool → List (Option (Str × Str)) → Rng → List (Option (Str × Str)) × Rng
  | m :: ms, a :: as, rng =>
    if m then
      let (v, rng') := rng.next
      let (rest, rng'') := assignTargetDraws source options ms as rng'
      (some (source, options.getD (drawIdx options.length v) []) :: rest, rng'')
    else
      let (rest, rng') := assignTargetDraws source options ms as rng
      (a :: rest, rng')
  | _, _, rng => ([], rng)

/-- One iteration of the source loop (lines 460-496): draw one value per row,
mark still-unassigned rows that contain the source and fall under their
probability, and record the source together with a target — the single target
when the source has exactly one, an independent uniform draw per row
otherwise. -/
def replacementSourceStep (table : List (Str × Str)) (uniqSources : List Str)
    (srs : Series) (st : List (Option (Str × Str)) × Rng) (source : Str) :
    List (Option (Str × Str)) × Rng :=
  let (assigned, rng) := st
  let (vs, rng1) := rng.nextN srs.length
  let mask := zipW3 (fun (s : Str) (v : ℚ) (a : Option (Str × Str)) =>
      containsSub s source && decide (v < replacementProb uniqSources s) && a.isNone)
    srs vs assigned
  let cnt := mask.countP id
  if cnt = 0 then (assigned, rng1)
  else
    let options := (table.filter (fun row => row.1 = source)).map Prod.snd
    if options.length = 1 then
      (List.zipWith (fun (m : Bool) a => if m then some (source, options.headD []) else a)
        mask assigned, rng1)
    else assignTargetDraws source options mask assigned rng1

/-- The corruption function built by `with_replacement_table` (lines 438-516):
sources are the unique values of the table's source column in appearance
order; the final grouped double loop (lines 498-514) replaces, per assigned
row, the first occurrence of its recorded source by its recorded target. -/
def corruptReplacement (table : List (Str × Str)) (srs : Series) (rng : Rng) :
    Series × Rng :=
  let uniqSources := uniqFirst (table.map Prod.fst)
  let (assigned, rng') := uniqSources.foldl
    (replacementSourceStep table uniqSources srs)
    (List.replicate srs.length (none : Option (Str × Str)), rng)
  (List.zipWith (fun (s : Str) (a : Option (Str × Str)) =>
      match a with
      | some (src, tgt) => replaceFirst s src tgt
      | none => s) srs assigned, rng')

/-! ## Categorical resampling (`with_categorical_values`) -/

/-- Models Python `re.fullmatch(pat, s)` for patterns built from literal
characters and the wildcard `.` — the regex fragment exercised in the theorems
below. `srs.str.fullmatch(unique_val)` interprets the category value as a
regular expression, not as a literal string. -/
def reFullmatch (pat s : Str) : Bool :=
  decide (pat.length = s.length) &&
    (pat.zip s).all (fun pc => decide (pc.1 = '.') || decide (pc.1 = pc.2))

def strLeB : Str → Str → Bool
  | [], _ => true
  | _ :: _, [] => false
  | a :: as, b :: bs => if a = b then strLeB as bs else decide (a < b)

def insertSortedStr (x : Str) : List Str → List Str
  | [] => [x]
  | y :: ys => if strLeB x y then x :: y :: ys else y :: insertSortedStr x ys

def sortStrs (l : List Str) : List Str := l.foldr insertSortedStr []

/-- `np.setdiff1d(unique_values, unique_val)`: the sorted unique values of the
first argument that differ from the second. -/
def setDiff1d (l : List Str) (v : Str) : List Str :=
  sortStrs ((uniqFirst l).filter (fun x => x ≠ v))

/-- One replacement draw per matched row, in row order
(`rng.choice(unique_vals_without_current, size=unique_val_total)`). -/
def assignCatDraws (others : List Str) :
    List Bool → List (Option Str) → Rng → List (Option Str) × Rng
  | m :: ms, u :: us, rng =>
    if m then
      let (v, rng') := rng.next
      let (rest, rng'') := assignCatDraws others ms us rng'
      (some (others.getD (drawIdx others.length v) []) :: rest, rng'')
    else
      let (rest, rng') := assignCatDraws others ms us rng
      (u :: rest, rng')
  | _, _, rng => ([], rng)

/-- One iteration of the unique-value loop (lines 941-959): rows whose value
regex-fullmatches the current category value receive a draw from the sorted
other categories; `numpy` raises when that set is empty (a single known
category) and any row matches. Later iterations overwrite earlier
assignments. -/
def categoricalValStep (uniq : List Str) (srs : Series)
    (st : Except String (List (Option Str) × Rng)) (v : Str) :
    Except String (List (Option Str) × Rng) :=
  match st with
  | .error e => .error e
  | .ok (upd, rng) =>
    let mask := srs.map (fun s => reFullmatch v s)
    let cnt := mask.countP id
    if cnt = 0 then .ok (upd, rng)
    else
      let others := setDiff1d uniq v
      if others = [] then .error "a cannot be empty unless no samples are taken"
      else .ok (assignCatDraws others mask upd rng)

/-- The corruption function built by `with_categorical_values` (lines
932-965): `values` is the category column read at construction; its unique
values in appearance order drive the loop, and `srs_out.update(srs_in_update)`
takes the assigned value where one exists and the original row otherwise. -/
def corruptCategorical (values : List Str) (srs : Series) (rng : Rng) :
    Except String (Series × Rng) :=
  let uniq := uniqFirst values
  match uniq.foldl (categoricalValStep uniq srs)
      (.ok (List.replicate srs.length (none : Option Str), rng)) with
  | .error e => .error e
  | .ok (upd, rng') =>
    .ok (List.zipWith (fun (s : Str) (u : Option Str) => u.getD s) srs upd, rng')

/-! ## Construction-time column checks -/

/-- The header/column-type check of `with_replacement_table` (lines 422-425),
verbatim: it raises when a header is declared AND either column is given as a
string name. A column given as `isinstance(·, str)` is the right summand. -/
def replacementTableColumnCheck (header : Bool)
    (sourceColumn targetColumn : Nat ⊕ String) : Except String Unit :=
  if header ∧ (sourceColumn.isRight ∨ targetColumn.isRight) then
    .error "header present, but source and target columns must be strings"
  else .ok ()

/-- The header/column-type check of `with_categorical_values` (lines 916-917),
verbatim: it raises when a header is declared and the value column is NOT
given as a string name. -/
def categoricalValuesColumnCheck (header : Bool) (valueColumn : Nat ⊕ String) :
    Except String Unit :=
  if header ∧ ¬ valueColumn.isRight then
    .error "header present, but value column must be a string"
  else .ok ()

/-! ## Weighted draws, masked dispatch, and the orchestrator -/

/-- `rng.choice(range(k), p=ps)` index selection: `numpy` draws a uniform `v`
and returns `cdf.searchsorted(v, side="right")`, i.e. the number of cumulative
sums ≤ `v`. -/
def drawCat (ps : List ℚ) (v : ℚ) : Nat :=
  (List.range ps.length).countP (fun i => decide ((ps.take (i + 1)).sum ≤ v))

/-- `srs[mask]`: the masked rows, in row order (a fresh object in pandas). -/
def gatherMask (srs : Series) (mask : List Bool) : Series :=
  ((srs.zip mask).filter (fun p => p.2)).map Prod.fst

/-- `srs[mask] = vals`: write `vals` back into the masked positions, in row
order. -/
def scatterMask : Series → List Bool → Series → Series
  | s :: ss, m :: ms, vals =>
    if m then vals.headD [] :: scatterMask ss ms vals.tail
    else s :: scatterMask ss ms vals
  | srs, _, _ => srs

/-- A corruption function: the shared contract the orchestrator dispatches
through. -/
abbrev PureCorruptor := Series → Rng → Series × Rng

/-- The per-column body of `corrupt_dataframe` (lines 1000-1034) after a
single corruptor or an unweighted list has been normalized to weighted pairs:
`rng.choice([i for i in range(len(p_values))], p=p_values)` is numpy's sanity
check — it raises `ValueError` unless the weights are non-negative and sum to
EXACTLY 1.0 (up to float tolerance), which the `except` turns into the
column's configuration error; on success one corruptor index is drawn per row
and each corruptor is invoked on its mask's rows of the ORIGINAL column, the
results written back into the copied frame. An empty spec dies unpacking
`zip(*corruptor_spec)`. -/
def corruptColumnSpec (column : String) (spec : List (ℚ × PureCorruptor))
    (srs : Series) (rng : Rng) : Except String (Series × Rng) :=
  match spec with
  | [] => .error "not enough values to unpack (expected 2, got 0)"
  | _ =>
    let ps := spec.map Prod.fst
    if ps.all (fun p => decide (0 ≤ p)) ∧ ps.sum = 1 then
      let rng1 := rng.next.2
      let (vs, rng2) := rng1.nextN srs.length
      let idxs := vs.map (drawCat ps)
      .ok ((List.range spec.length).foldl (fun (st : Series × Rng) i =>
        let mask := idxs.map (fun k => decide (k = i))
        let (res, r') := (spec.getD i (1, corruptNoop)).2 (gatherMask srs mask) st.2
        (scatterMask st.1 mask res, r')) (srs, rng2))
    else .error ("probabilities for column `" ++ column ++ "` must sum up to 1.0")

/-! ## A heap of series: where each corruption function writes

Claim C2 is about Python-level aliasing: every corruption function either
copies its input series before any masked assignment, builds a brand-new
series, or returns the input untouched. The heap embedding makes the write
targets explicit: `Heap` holds the live series, a corruption function gets the
address of its input, `copy()`/fresh construction is an allocation, and the
masked in-place assignments — which all target the copy — are recorded as one
write of their combined result to the copy's address. -/

abbrev Heap := List Series

def Heap.read (h : Heap) (a : Nat) : Series := h.getD a []

def Heap.write (h : Heap) (a : Nat) (s : Series) : Heap := h.set a s

def Heap.alloc (h : Heap) (s : Series) : Heap × Nat := (h ++ [s], h.length)

/-- The shared shape of the corruption-function bodies: an optional early
`return srs_str_in` guard (the length checks of `with_delete`,
`with_transpose`, `with_substitute`, taken before the copy), then
`srs_str_out = srs_str_in.copy()` (an allocation) and the masked in-place
updates of the copy, whose combined result is written to the copy's address. -/
def viaCopy (guard : Series → Bool) (f : Series → Rng → Series × Rng)
    (h : Heap) (a : Nat) (rng : Rng) : Heap × Nat × Rng :=
  let sIn := h.read a
  if guard sIn then (h, a, rng)
  else
    let (out, rng') := f sIn rng
    let (h1, aOut) := h.alloc sIn
    (h1.write aOut out, aOut, rng')

/-- `with_cldr_keymap_file`'s function on the heap. -/
def keymapH (cand : List (Char × List Char)) : Heap → Nat → Rng → Heap × Nat × Rng :=
  viaCopy (fun _ => false) (corruptKeymap cand)

/-- `with_phonetic_replacement_table`'s function on the heap. -/
def phoneticH (rules : List PhoneticRule) : Heap → Nat → Rng → Heap × Nat × Rng :=
  viaCopy (fun _ => false) (corruptPhonetic rules)

/-- `with_replacement_table`'s function on the heap. -/
def replacementH (table : List (Str × Str)) : Heap → Nat → Rng → Heap × Nat × Rng :=
  viaCopy (fun _ => false) (corruptReplacement table)

/-- `with_insert`'s function on the heap. -/
def insertH (charset : List Char) : Heap → Nat → Rng → Heap × Nat × Rng :=
  viaCopy (fun _ => false) (corruptInsert charset)

/-- `with_delete`'s function on the heap: the length check precedes the copy;
when nothing is eligible the INPUT series itself is returned unmodified. -/
def deleteH : Heap → Nat → Rng → Heap × Nat × Rng :=
  viaCopy (fun s => s.countP (fun x => decide (1 ≤ x.length)) = 0) corruptDelete

/-- `with_transpose`'s function on the heap. -/
def transposeH : Heap → Nat → Rng → Heap × Nat × Rng :=
  viaCopy (fun s => s.countP (fun x => decide (2 ≤ x.length)) = 0) corruptTranspose

/-- `with_substitute`'s function on the heap. -/
def substituteH (charset : List Char) : Heap → Nat → Rng → Heap × Nat × Rng :=
  viaCopy (fun s => s.countP (fun x => decide (1 ≤ x.length)) = 0)
    (corruptSubstitute charset)

/-- `with_missing_value(value, "all")` on the heap: `pd.Series(...)` is a
brand-new allocation; the input is never even copied. -/
def missingAllH (value : Str) (h : Heap) (a : Nat) (rng : Rng) : Heap × Nat × Rng :=
  let (h1, aOut) := h.alloc (missingAll value (h.read a))
  (h1, aOut, rng)

/-- `with_missing_value(value, "empty")` on the heap. -/
def missingEmptyH (value : Str) : Heap → Nat → Rng → Heap × Nat × Rng :=
  viaCopy (fun _ => false) (fun s rng => (missingEmpty value s, rng))

/-- `with_missing_value(value, "blank")` on the heap. -/
def missingBlankH (value : Str) : Heap → Nat → Rng → Heap × Nat × Rng :=
  viaCopy (fun _ => false) (fun s rng => (missingBlank value s, rng))

/-- `with_noop()` on the heap: `return srs_in` — same address, no write, no
draw. -/
def noopH (h : Heap) (a : Nat) (rng : Rng) : Heap × Nat × Rng := (h, a, rng)

/-- `with_categorical_values` on the heap: the `numpy` error of an exhausted
category set propagates; otherwise the result is written to the copy. -/
def categoricalH (values : List Str) (h : Heap) (a : Nat) (rng : Rng) :
    Except String (Heap × Nat × Rng) :=
  match corruptCategorical values (h.read a) rng with
  | .error e => .error e
  | .ok (out, rng') =>
    let (h1, aOut) := h.alloc (h.read a)
    .ok (h1.write aOut out, aOut, rng')

/-- One `msk_op` step of `with_edit`'s function (lines 852-871): when the mask
selects any row, `srs_out[msk]` materializes a fresh temporary series, the
elementary corruptor runs on it with its own spawned generator, and the result
is assigned back into the masked rows of the copy at `aOut`. -/
def editOpStep (aOut : Nat) (mask : List Bool)
    (subH : Heap → Nat → Rng → Heap × Nat × Rng) (h : Heap) (r : Rng) :
    Heap × Rng :=
  if mask.countP id ≠ 0 then
    let (ht, aT) := h.alloc (gatherMask (h.read aOut) mask)
    let (h2, aRes, r') := subH ht aT r
    (h2.write aOut (scatterMask (h2.read aOut) mask (h2.read aRes)), r')
  else (h, r)

/-- `with_edit`'s function on the heap (lines 845-872): copy the input, draw
one operation per row from the weighted categorical distribution
(`rng.choice(edit_ops, size=n, p=edit_ops_prob)`), and run the four masked
elementary corruptors in order `ins`, `del`, `sub`, `trs`, each with its own
generator spawned at construction (`rng.spawn(4)`, modelled as the four
supplied child streams; their advanced states live in the Python closure). -/
def editH (probs : List ℚ) (charset : List Char) (rIns rDel rSub rTrs : Rng)
    (h : Heap) (a : Nat) (rng : Rng) : Heap × Nat × Rng :=
  let sIn := h.read a
  let (h1, aOut) := h.alloc sIn
  let (vs, rng1) := rng.nextN sIn.length
  let ops := vs.map (drawCat probs)
  let (h2, _) := editOpStep aOut (ops.map (fun o => decide (o = 0))) (insertH charset) h1 rIns
  let (h3, _) := editOpStep aOut (ops.map (fun o => decide (o = 1))) deleteH h2 rDel
  let (h4, _) := editOpStep aOut (ops.map (fun o => decide (o = 2))) (substituteH charset) h3 rSub
  let (h5, _) := editOpStep aOut (ops.map (fun o => decide (o = 3))) transposeH h4 rTrs
  (h5, aOut, rng1)

/-! ## Frame lemmas: the corruption functions write only fresh addresses -/

theorem Heap.read_alloc {h : Heap} {s : Series} {a' : Nat} (ha : a' < h.length) :
    ((h.alloc s).1).read a' = h.read a' := by
  simp only [Heap.alloc, Heap.read]
  rw [List.getD_eq_getElem?_getD, List.getD_eq_getElem?_getD]
  rw [List.getElem?_append]
  simp [ha]

theorem Heap.read_write_ne {h : Heap} {aOut : Nat} {out : Series} {a' : Nat}
    (ha : a' ≠ aOut) : (h.write aOut out).read a' = h.read a' := by
  simp only [Heap.write, Heap.read]
  rw [List.getD_eq_getElem?_getD, List.getD_eq_getElem?_getD]
  rw [List.getElem?_set_ne (by omega)]

theorem Heap.length_write (h : Heap) (a : Nat) (s : Series) :
    (h.write a s).length = h.length := List.length_set h a s

theorem viaCopy_frame (guard : Series → Bool) (f : Series → Rng → Series × Rng)
    (h : Heap) (a : Nat) (rng : Rng) {a' : Nat} (ha : a' < h.length) :
    ((viaCopy guard f h a rng).1).read a' = h.read a' := by
  rw [viaCopy]
  by_cases hg : guard (h.read a)
  · simp [hg]
  · simp only [hg, Bool.false_eq_true, if_false]
    have hne : a' ≠ (h.alloc (h.read a)).2 := by
      simp only [Heap.alloc]
      omega
    rw [Heap.read_write_ne hne, Heap.read_alloc ha]

theorem viaCopy_length (guard : Series → Bool) (f : Series → Rng → Series × Rng)
    (h : Heap) (a : Nat) (rng : Rng) :
    h.length ≤ ((viaCopy guard f h a rng).1).length := by
  rw [viaCopy]
  by_cases hg : guard (h.read a)
  · simp [hg]
  · simp only [hg, Bool.false_eq_true, if_false]
    rw [Heap.length_write]
    simp [Heap.alloc]

theorem editOpStep_frame (aOut : Nat) (mask : List Bool)
    (subH : Heap → Nat → Rng → Heap × Nat × Rng)
    (hframe : ∀ (h : Heap) (a : Nat) (rng : Rng) (a' : Nat), a' < h.length →
      ((subH h a rng).1).read a' = h.read a')
    {h : Heap} {r : Rng} {a' : Nat} (ha : a' < h.length) (hout : a' ≠ aOut) :
    ((editOpStep aOut mask subH h r).1).read a' = h.read a' := by
  rw [editOpStep]
  by_cases hc : mask.countP id ≠ 0
  · rw [if_pos hc]
    have h1 : a' < ((h.alloc (gatherMask (h.read aOut) mask)).1).length := by
      simp only [Heap.alloc]
      simp
      omega
    rw [Heap.read_write_ne hout, hframe _ _ _ _ h1, Heap.read_alloc ha]
  · simp [hc]

theorem editOpStep_length (aOut : Nat) (mask : List Bool)
    (subH : Heap → Nat → Rng → Heap × Nat × Rng)
    (hlen : ∀ (h : Heap) (a : Nat) (rng : Rng), h.length ≤ ((subH h a rng).1).length)
    (h : Heap) (r : Rng) :
    h.length ≤ ((editOpStep aOut mask subH h r).1).length := by
  rw [editOpStep]
  by_cases hc : mask.countP id ≠ 0
  · rw [if_pos hc]
    rw [Heap.length_write]
    calc h.length ≤ ((h.alloc (gatherMask (h.read aOut) mask)).1).length := by
          simp [Heap.alloc]
      _ ≤ _ := hlen _ _ _
  · simp [hc]

theorem editH_frame (probs : List ℚ) (charset : List Char) (rIns rDel rSub rTrs : Rng)
    (h : Heap) (a : Nat) (rng : Rng) {a' : Nat} (ha : a' < h.length) :
    ((editH probs charset rIns rDel rSub rTrs h a rng).1).read a' = h.read a' := by
  rw [editH]
  have hout : a' ≠ (h.alloc (h.read a)).2 := by simp only [Heap.alloc]; omega
  have hvF : ∀ (g : Series → Bool) (f : Series → Rng → Series × Rng)
      (h₀ : Heap) (a₀ : Nat) (r₀ : Rng) (b : Nat), b < h₀.length →
      ((viaCopy g f h₀ a₀ r₀).1).read b = h₀.read b :=
    fun g f h₀ a₀ r₀ b hb => viaCopy_frame g f h₀ a₀ r₀ hb
  have hvL : ∀ (g : Series → Bool) (f : Series → Rng → Series × Rng)
      (h₀ : Heap) (a₀ : Nat) (r₀ : Rng), h₀.length ≤ ((viaCopy g f h₀ a₀ r₀).1).length :=
    viaCopy_length
  have h1len : a' < ((h.alloc (h.read a)).1).length := by
    simp only [Heap.alloc]; simp; omega
  have h2 := editOpStep_frame ((h.alloc (h.read a)).2)
    (((rng.nextN (h.read a).length).1.map (drawCat probs)).map (fun o => decide (o = 0)))
    (insertH charset) (hvF _ _) (h := (h.alloc (h.read a)).1) (r := rIns) h1len hout
  have h2len := editOpStep_length ((h.alloc (h.read a)).2)
    (((rng.nextN (h.read a).length).1.map (drawCat probs)).map (fun o => decide (o = 0)))
    (insertH charset) (hvL _ _) ((h.alloc (h.read a)).1) rIns
  set h1 := (h.alloc (h.read a)).1 with hh1
  set aOut := (h.alloc (h.read a)).2 with haOut
  set ops := ((rng.nextN (h.read a).length).1.map (drawCat probs)) with hops
  set st2 := editOpStep aOut (ops.map (fun o => decide (o = 0))) (insertH charset) h1 rIns with hst2
  have h3 := editOpStep_frame aOut (ops.map (fun o => decide (o = 1))) deleteH
    (hvF _ _) (h := st2.1) (r := rDel) (by omega : a' < st2.1.length) hout
  have h3len := editOpStep_length aOut (ops.map (fun o => decide (o = 1))) deleteH
    (hvL _ _) st2.1 rDel
  set st3 := editOpStep aOut (ops.map (fun o => decide (o = 1))) deleteH st2.1 rDel with hst3
  have h4 := editOpStep_frame aOut (ops.map (fun o => decide (o = 2))) (substituteH charset)
    (hvF _ _) (h := st3.1) (r := rSub) (by omega : a' < st3.1.length) hout
  have h4len := editOpStep_length aOut (ops.map (fun o => decide (o = 2))) (substituteH charset)
    (hvL _ _) st3.1 rSub
  set st4 := editOpStep aOut (ops.map (fun o => decide (o = 2))) (substituteH charset) st3.1 rSub with hst4
  have h5 := editOpStep_frame aOut (ops.map (fun o => decide (o = 3))) transposeH
    (hvF _ _) (h := st4.1) (r := rTrs) (by omega : a' < st4.1.length) hout
  simp only [hst2, hst3, hst4] at *
  rw [h5, h4, h3, h2, Heap.read_alloc ha]

/-- C2. Purity: for every corruption function produced by the library —
keyboard typo, phonetic, replacement table, missing value (all three
strategies), insert, delete, substitute, transpose, edit composer, noop,
categorical — and every input series, the series stored at the input's
address is bit-identical before and after the call: each function writes only
freshly allocated addresses (its copy, a brand-new series, or masked
temporaries), never its input. -/
theorem c2_purity :
    (∀ (cand : List (Char × List Char)) (h : Heap) (a : Nat) (rng : Rng),
      a < h.length → (keymapH cand h a rng).1.read a = h.read a) ∧
    (∀ (rules : List PhoneticRule) (h : Heap) (a : Nat) (rng : Rng),
      a < h.length → (phoneticH rules h a rng).1.read a = h.read a) ∧
    (∀ (table : List (Str × Str)) (h : Heap) (a : Nat) (rng : Rng),
      a < h.length → (replacementH table h a rng).1.read a = h.read a) ∧
    (∀ (value : Str) (h : Heap) (a : Nat) (rng : Rng),
      a < h.length → (missingAllH value h a rng).1.read a = h.read a) ∧
    (∀ (value : Str) (h : Heap) (a : Nat) (rng : Rng),
      a < h.length → (missingEmptyH value h a rng).1.read a = h.read a) ∧
    (∀ (value : Str) (h : Heap) (a : Nat) (rng : Rng),
      a < h.length → (missingBlankH value h a rng).1.read a = h.read a) ∧
    (∀ (charset : List Char) (h : Heap) (a : Nat) (rng : Rng),
      a < h.length → (insertH charset h a rng).1.read a = h.read a) ∧
    (∀ (h : Heap) (a : Nat) (rng : Rng),
      a < h.length → (deleteH h a rng).1.read a = h.read a) ∧
    (∀ (charset : List Char) (h : Heap) (a : Nat) (rng : Rng),
      a < h.length → (substituteH charset h a rng).1.read a = h.read a) ∧
    (∀ (h : Heap) (a : Nat) (rng : Rng),
      a < h.length → (transposeH h a rng).1.read a = h.read a) ∧
    (∀ (probs : List ℚ) (charset : List Char) (rIns rDel rSub rTrs : Rng)
      (h : Heap) (a : Nat) (rng : Rng), a < h.length →
      (editH probs charset rIns rDel rSub rTrs h a rng).1.read a = h.read a) ∧
    (∀ (h : Heap) (a : Nat) (rng : Rng),
      a < h.length → (noopH h a rng).1.read a = h.read a) ∧
    (∀ (values : List Str) (h : Heap) (a : Nat) (rng : Rng)
      (res : Heap × Nat × Rng), a < h.length →
      categoricalH values h a rng = Except.ok res → res.1.read a = h.read a) := by
  refine ⟨?_, ?_, ?_, ?_, ?_, ?_, ?_, ?_, ?_, ?_, ?_, ?_, ?_⟩
  · exact fun cand h a rng ha => viaCopy_frame _ _ h a rng ha
  · exact fun rules h a rng ha => viaCopy_frame _ _ h a rng ha
  · exact fun table h a rng ha => viaCopy_frame _ _ h a rng ha
  · intro value h a rng ha
    rw [missingAllH]
    exact Heap.read_alloc ha
  · exact fun value h a rng ha => viaCopy_frame _ _ h a rng ha
  · exact fun value h a rng ha => viaCopy_frame _ _ h a rng ha
  · exact fun charset h a rng ha => viaCopy_frame _ _ h a rng ha
  · exact fun h a rng ha => viaCopy_frame _ _ h a rng ha
  · exact fun charset h a rng ha => viaCopy_frame _ _ h a rng ha
  · exact fun h a rng ha => viaCopy_frame _ _ h a rng ha
  · exact fun probs charset rIns rDel rSub rTrs h a rng ha =>
      editH_frame probs charset rIns rDel rSub rTrs h a rng ha
  · exact fun h a rng _ => rfl
  · intro values h a rng res ha hok
    rw [categoricalH] at hok
    cases hcc : corruptCategorical values (h.read a) rng with
    | error e => rw [hcc] at hok; exact absurd hok (by simp)
    | ok pr =>
      rw [hcc] at hok
      have hres : res = ((h.alloc (h.read a)).1.write (h.alloc (h.read a)).2 pr.1,
          (h.alloc (h.read a)).2, pr.2) := by
        cases pr
        injection hok with hok
        exact hok.symm
      subst hres
      have hne : a ≠ (h.alloc (h.read a)).2 := by simp only [Heap.alloc]; omega
      rw [Heap.read_write_ne hne, Heap.read_alloc ha]

/-- Witness for C2 at a one-cell heap holding the series `["a"]`. -/
theorem c2_purity_witness :
    ((keymapH [] [[['a']]] 0 ⟨[]⟩).1.read 0 = Heap.read [[['a']]] 0) ∧
    ((phoneticH [] [[['a']]] 0 ⟨[]⟩).1.read 0 = Heap.read [[['a']]] 0) ∧
    ((replacementH [] [[['a']]] 0 ⟨[]⟩).1.read 0 = Heap.read [[['a']]] 0) ∧
    ((missingAllH ['x'] [[['a']]] 0 ⟨[]⟩).1.read 0 = Heap.read [[['a']]] 0) ∧
    ((missingEmptyH ['x'] [[['a']]] 0 ⟨[]⟩).1.read 0 = Heap.read [[['a']]] 0) ∧
    ((missingBlankH ['x'] [[['a']]] 0 ⟨[]⟩).1.read 0 = Heap.read [[['a']]] 0) ∧
    ((insertH ['x'] [[['a']]] 0 ⟨[]⟩).1.read 0 = Heap.read [[['a']]] 0) ∧
    ((deleteH [[['a']]] 0 ⟨[]⟩).1.read 0 = Heap.read [[['a']]] 0) ∧
    ((substituteH ['x'] [[['a']]] 0 ⟨[]⟩).1.read 0 = Heap.read [[['a']]] 0) ∧
    ((transposeH [[['a']]] 0 ⟨[]⟩).1.read 0 = Heap.read [[['a']]] 0) ∧
    ((editH [1, 0, 0, 0] ['x'] ⟨[]⟩ ⟨[]⟩ ⟨[]⟩ ⟨[]⟩ [[['a']]] 0 ⟨[]⟩).1.read 0 =
      Heap.read [[['a']]] 0) ∧
    ((noopH [[['a']]] 0 ⟨[]⟩).1.read 0 = Heap.read [[['a']]] 0) ∧
    (Heap.read [[['a']], [['a']]] 0 = Heap.read [[['a']]] 0) := by
  refine ⟨c2_purity.1 [] _ 0 _ (by decide),
    c2_purity.2.1 [] _ 0 _ (by decide),
    c2_purity.2.2.1 [] _ 0 _ (by decide),
    c2_purity.2.2.2.1 ['x'] _ 0 _ (by decide),
    c2_purity.2.2.2.2.1 ['x'] _ 0 _ (by decide),
    c2_purity.2.2.2.2.2.1 ['x'] _ 0 _ (by decide),
    c2_purity.2.2.2.2.2.2.1 ['x'] _ 0 _ (by decide),
    c2_purity.2.2.2.2.2.2.2.1 _ 0 _ (by decide),
    c2_purity.2.2.2.2.2.2.2.2.1 ['x'] _ 0 _ (by decide),
    c2_purity.2.2.2.2.2.2.2.2.2.1 _ 0 _ (by decide),
    c2_purity.2.2.2.2.2.2.2.2.2.2.1 [1, 0, 0, 0] ['x'] ⟨[]⟩ ⟨[]⟩ ⟨[]⟩ ⟨[]⟩ _ 0 _ (by decide),
    c2_purity.2.2.2.2.2.2.2.2.2.2.2.1 _ 0 _ (by decide),
    c2_purity.2.2.2.2.2.2.2.2.2.2.2.2 [] [[['a']]] 0 ⟨[]⟩
      ([[['a']], [['a']]], 1, ⟨[]⟩) (by decide) (by rfl)⟩

/-- The per-draw predicate used throughout: a uniform draw lies in `[0, 1)`. -/
def UnitRange (v : ℚ) : Prop := 0 ≤ v ∧ v < 1

theorem unitRange_zero : UnitRange 0 := ⟨le_refl 0, one_pos⟩

/-- C3. Length-delta contracts: insert grows every string by exactly 1 with
an insertion index in `[0, length]` and an inserted charset character; delete
shrinks every string of length ≥ 1 by exactly 1 and leaves empty strings
unchanged; substitute preserves every string's length; transpose preserves
every string's length and its multiset of characters. -/
theorem c3_length_delta (charset : List Char) (srs : Series) (rng : Rng)
    (hwf : rng.WF) (hcs : charset ≠ []) :
    (∀ j, j < srs.length →
      ∃ i c, i ≤ (srs.getD j []).length ∧ c ∈ charset ∧
        (corruptInsert charset srs rng).1.getD j [] = insert1 (srs.getD j []) i c ∧
        ((corruptInsert charset srs rng).1.getD j []).length =
          (srs.getD j []).length + 1) ∧
    (∀ j, j < srs.length →
      (1 ≤ (srs.getD j []).length →
        ((corruptDelete srs rng).1.getD j []).length = (srs.getD j []).length - 1) ∧
      ((srs.getD j []).length = 0 →
        (corruptDelete srs rng).1.getD j [] = srs.getD j [])) ∧
    (∀ j, j < srs.length →
      ((corruptSubstitute charset srs rng).1.getD j []).length =
        (srs.getD j []).length) ∧
    (∀ j, j < srs.length →
      ((corruptTranspose srs rng).1.getD j []).length = (srs.getD j []).length ∧
      ((corruptTranspose srs rng).1.getD j []).Perm (srs.getD j [])) := by
  refine ⟨?_, ?_, ?_, ?_⟩
  · -- insert
    intro j hj
    have hcor : (corruptInsert charset srs rng).1 =
        mapElig2 0 (fun s v w => insert1 s (drawIdx (s.length + 1) v) (chooseFrom charset w))
          srs (rng.nextN srs.length).1 ((rng.nextN srs.length).2.nextN srs.length).1 := rfl
    rw [hcor]
    have hvs : ∀ v ∈ (rng.nextN srs.length).1, UnitRange v :=
      fun v hv => (Rng.nextN_wf hwf srs.length).1 v hv
    have hws : ∀ w ∈ ((rng.nextN srs.length).2.nextN srs.length).1, UnitRange w :=
      fun w hw => (Rng.nextN_wf (Rng.nextN_wf hwf srs.length).2 srs.length).1 w hw
    have hpt := (mapElig2_getD 0
      (fun s v w => insert1 s (drawIdx (s.length + 1) v) (chooseFrom charset w))
      UnitRange unitRange_zero srs _ _ hvs hws j hj).1 (Nat.zero_le _)
    obtain ⟨v, w, hv, hw, heq⟩ := hpt
    refine ⟨drawIdx ((srs.getD j []).length + 1) v, chooseFrom charset w, ?_, ?_, ?_, ?_⟩
    · have := drawIdx_lt (m := (srs.getD j []).length + 1) (Nat.succ_pos _) hv.1 hv.2
      omega
    · exact chooseFrom_mem hcs hw.1 hw.2
    · exact heq
    · rw [heq, insert1_length]
  · -- delete
    intro j hj
    rw [corruptDelete]
    by_cases h0 : srs.countP (fun x => decide (1 ≤ x.length)) = 0
    · rw [if_pos h0]
      have : ∀ x ∈ srs, ¬ (1 ≤ x.length) := by
        intro x hx
        have := List.countP_eq_zero.mp h0 x hx
        simpa using this
      have hmem : srs.getD j [] ∈ srs := by
        rw [List.getD_eq_getElem srs [] hj]
        exact List.getElem_mem hj
      constructor
      · intro h1
        exact absurd h1 (this _ hmem)
      · intro _; rfl
    · rw [if_neg h0]
      have hvs : ∀ v ∈ (rng.nextN (srs.countP (fun x => decide (1 ≤ x.length)))).1,
          UnitRange v :=
        fun v hv => (Rng.nextN_wf hwf _).1 v hv
      have hpt := mapElig_getD 1 (fun s v => delete1 s (drawIdx s.length v))
        UnitRange unitRange_zero srs _ hvs j hj
      constructor
      · intro h1
        obtain ⟨v, hv, heq⟩ := hpt.1 h1
        rw [heq, delete1_length (drawIdx_lt (by omega) hv.1 hv.2)]
      · intro h1
        exact hpt.2 (by omega)
  · -- substitute
    intro j hj
    rw [corruptSubstitute]
    by_cases h0 : srs.countP (fun x => decide (1 ≤ x.length)) = 0
    · rw [if_pos h0]
    · rw [if_neg h0]
      have hvs : ∀ v ∈ (rng.nextN (srs.countP (fun x => decide (1 ≤ x.length)))).1,
          UnitRange v :=
        fun v hv => (Rng.nextN_wf hwf _).1 v hv
      have hws : ∀ w ∈ ((rng.nextN (srs.countP (fun x => decide (1 ≤ x.length)))).2.nextN
          (srs.countP (fun x => decide (1 ≤ x.length)))).1, UnitRange w :=
        fun w hw => (Rng.nextN_wf (Rng.nextN_wf hwf _).2 _).1 w hw
      have hpt := mapElig2_getD 1
        (fun s v w => substitute1 s (drawIdx s.length v) (chooseFrom charset w))
        UnitRange unitRange_zero srs _ _ hvs hws j hj
      by_cases h1 : 1 ≤ (srs.getD j []).length
      · obtain ⟨v, w, hv, hw, heq⟩ := hpt.1 h1
        rw [heq, substitute1_length (drawIdx_lt (by omega) hv.1 hv.2)]
      · rw [hpt.2 h1]
  · -- transpose
    intro j hj
    rw [corruptTranspose]
    by_cases h0 : srs.countP (fun x => decide (2 ≤ x.length)) = 0
    · rw [if_pos h0]
      exact ⟨rfl, List.Perm.refl _⟩
    · rw [if_neg h0]
      have hvs : ∀ v ∈ (rng.nextN (srs.countP (fun x => decide (2 ≤ x.length)))).1,
          UnitRange v :=
        fun v hv => (Rng.nextN_wf hwf _).1 v hv
      have hpt := mapElig_getD 2 (fun s v => transpose1 s (drawIdx (s.length - 1) v))
        UnitRange unitRange_zero srs _ hvs j hj
      by_cases h2 : 2 ≤ (srs.getD j []).length
      · obtain ⟨v, hv, heq⟩ := hpt.1 h2
        have hidx : drawIdx ((srs.getD j []).length - 1) v < (srs.getD j []).length - 1 :=
          drawIdx_lt (by omega) hv.1 hv.2
        have hsucc : drawIdx ((srs.getD j []).length - 1) v + 1 < (srs.getD j []).length := by
          omega
        exact ⟨by rw [heq, transpose1_length hsucc], by rw [heq]; exact transpose1_perm hsucc⟩
      · rw [hpt.2 h2]
        exact ⟨rfl, List.Perm.refl _⟩

/-- Witness for C3 on `["ab", ""]` with charset `"x"` and draws `0.5, 0.5`. -/
theorem c3_length_delta_witness :
    Rng.WF ⟨[1/2, 1/2]⟩ ∧ (['x'] : List Char) ≠ [] ∧
    (∃ i c, i ≤ 2 ∧ c ∈ (['x'] : List Char) ∧
      (corruptInsert ['x'] [['a', 'b'], []] ⟨[1/2, 1/2]⟩).1.getD 0 [] =
        insert1 ['a', 'b'] i c ∧
      ((corruptInsert ['x'] [['a', 'b'], []] ⟨[1/2, 1/2]⟩).1.getD 0 []).length = 3) ∧
    ((corruptDelete [['a', 'b'], []] ⟨[1/2, 1/2]⟩).1.getD 0 []).length = 1 ∧
    (corruptDelete [['a', 'b'], []] ⟨[1/2, 1/2]⟩).1.getD 1 [] = [] ∧
    ((corruptSubstitute ['x'] [['a', 'b'], []] ⟨[1/2, 1/2]⟩).1.getD 0 []).length = 2 ∧
    ((corruptTranspose [['a', 'b'], []] ⟨[1/2, 1/2]⟩).1.getD 0 []).length = 2 ∧
    ((corruptTranspose [['a', 'b'], []] ⟨[1/2, 1/2]⟩).1.getD 0 []).Perm ['a', 'b'] := by
  have hwf : Rng.WF ⟨[1/2, 1/2]⟩ := by
    intro v hv
    rcases List.mem_cons.mp hv with rfl | hv'
    · norm_num
    · rcases List.mem_cons.mp hv' with rfl | hv''
      · norm_num
      · exact absurd hv'' (List.not_mem_nil _)
  have h := c3_length_delta ['x'] [['a', 'b'], []] ⟨[1/2, 1/2]⟩ hwf (by decide)
  refine ⟨hwf, by decide, ?_, ?_, ?_, ?_, ?_, ?_⟩
  · have := h.1 0 (by decide)
    simpa using this
  · exact (h.2.1 0 (by decide)).1 (by decide)
  · exact (h.2.1 1 (by decide)).2 (by decide)
  · have := h.2.2.1 0 (by decide)
    simpa using this
  · exact (h.2.2.2 0 (by decide)).1
  · exact (h.2.2.2 0 (by decide)).2

/-- C9. `with_noop` is the identity: the inner function returns the input
series itself (same address on the heap, no write), alters no value, and —
taking no random source at all — consumes nothing from any random source. -/
theorem c9_noop_identity :
    (∀ (srs : Series) (rng : Rng), corruptNoop srs rng = (srs, rng)) ∧
    (∀ (h : Heap) (a : Nat) (rng : Rng), noopH h a rng = (h, a, rng)) :=
  ⟨fun _ _ => rfl, fun _ _ _ => rfl⟩

/-- C10. When no string meets the minimum length (1 for delete and
substitute, 2 for transpose), the corruption function returns the input
series unchanged before drawing anything: the random generator state is
untouched. -/
theorem c10_early_return (charset : List Char) (srs : Series) (rng : Rng) :
    ((∀ x ∈ srs, x.length < 1) → corruptDelete srs rng = (srs, rng)) ∧
    ((∀ x ∈ srs, x.length < 1) → corruptSubstitute charset srs rng = (srs, rng)) ∧
    ((∀ x ∈ srs, x.length < 2) → corruptTranspose srs rng = (srs, rng)) := by
  refine ⟨?_, ?_, ?_⟩
  · intro hall
    rw [corruptDelete, if_pos]
    exact List.countP_eq_zero.mpr (fun x hx => by simpa using Nat.not_le.mpr (hall x hx))
  · intro hall
    rw [corruptSubstitute, if_pos]
    exact List.countP_eq_zero.mpr (fun x hx => by simpa using Nat.not_le.mpr (hall x hx))
  · intro hall
    rw [corruptTranspose, if_pos]
    exact List.countP_eq_zero.mpr (fun x hx => by simpa using Nat.not_le.mpr (hall x hx))

/-- Witness for C10: two empty strings (and one 1-character string for
transpose), a non-empty random queue that is returned untouched. -/
theorem c10_early_return_witness :
    corruptDelete [[], []] ⟨[0]⟩ = ([[], []], ⟨[0]⟩) ∧
    corruptSubstitute ['x'] [[], []] ⟨[0]⟩ = ([[], []], ⟨[0]⟩) ∧
    corruptTranspose [['a']] ⟨[0]⟩ = ([['a']], ⟨[0]⟩) :=
  ⟨(c10_early_return ['x'] [[], []] ⟨[0]⟩).1 (by decide),
   (c10_early_return ['x'] [[], []] ⟨[0]⟩).2.1 (by decide),
   (c10_early_return ['x'] [['a']] ⟨[0]⟩).2.2 (by decide)⟩

/-- C1 (the code evaluated at the failing input): `corrupt_dataframe` funnels
the weights through `rng.choice(..., p=p_values)`, and `numpy` rejects any
weight vector that does not sum to EXACTLY 1.0 — so a column spec of
`[(0.5, f)]`, whose unassigned mass the spec says becomes an implicit no-op,
raises the configuration error instead of orchestrating; a sum above 1.0
raises as the claim says; a sum of exactly 1.0 orchestrates. -/
theorem c1_sum_below_one_raises :
    corruptColumnSpec "foo" [((1 : ℚ)/2, corruptNoop)] [['a']] ⟨[]⟩ =
      Except.error "probabilities for column `foo` must sum up to 1.0" ∧
    corruptColumnSpec "foo" [((4 : ℚ)/5, corruptNoop), ((3 : ℚ)/10, corruptNoop)]
        [['a']] ⟨[]⟩ =
      Except.error "probabilities for column `foo` must sum up to 1.0" ∧
    corruptColumnSpec "foo" [((1 : ℚ), corruptNoop)] [['a']] ⟨[]⟩ =
      Except.ok ([['a']], ⟨[]⟩) := by
  refine ⟨?_, ?_, ?_⟩
  · norm_num [corruptColumnSpec]
    rfl
  · norm_num [corruptColumnSpec]
    rfl
  · have hdc : drawCat [(1 : ℚ)] 0 = 0 := by norm_num [drawCat]
    simp [corruptColumnSpec, corruptNoop, Rng.next, Rng.nextN, hdc, List.range_succ,
      scatterMask, gatherMask]

/-- C8 (the code evaluated at the decisive inputs): `with_replacement_table`'s
construction check is INVERTED — it raises "header present, but source and
target columns must be strings" precisely when the header is declared and the
columns ARE strings (the agreeing configuration its own message describes as
required), and accepts a declared header with positional integer columns (the
mismatch); `with_categorical_values`'s check is the correct one. -/
theorem c8_replacement_check_inverted :
    replacementTableColumnCheck true (Sum.inr "source") (Sum.inr "target") =
      Except.error "header present, but source and target columns must be strings" ∧
    replacementTableColumnCheck true (Sum.inl 0) (Sum.inl 1) = Except.ok () ∧
    categoricalValuesColumnCheck true (Sum.inr "gender") = Except.ok () ∧
    categoricalValuesColumnCheck true (Sum.inl 0) =
      Except.error "header present, but value column must be a string" := by
  refine ⟨?_, ?_, ?_, ?_⟩ <;> rfl

/-! ## Pointwise lemmas for the masked zips of the phonetic engine -/

theorem zipW3_getD {α β γ δ : Type} {f : α → β → γ → δ} (da : α) (db : β) (dc : γ)
    (dd : δ) : ∀ (as : List α) (bs : List β) (cs : List γ) (j : Nat),
    j < as.length → j < bs.length → j < cs.length →
    (zipW3 f as bs cs).getD j dd = f (as.getD j da) (bs.getD j db) (cs.getD j dc) := by
  intro as
  induction as with
  | nil => intro bs cs j h1 _ _; simp at h1
  | cons a at' ih =>
    intro bs cs j h1 h2 h3
    cases bs with
    | nil => simp at h2
    | cons b bt =>
      cases cs with
      | nil => simp at h3
      | cons c ct =>
        cases j with
        | zero => simp [zipW3]
        | succ j =>
          simp only [zipW3, List.getD_cons_succ]
          exact ih bt ct j (by simpa using h1) (by simpa using h2) (by simpa using h3)

theorem zipWith_getD {α β γ : Type} {f : α → β → γ} (da : α) (db : β) (dc : γ) :
    ∀ (as : List α) (bs : List β) (j : Nat), j < as.length → j < bs.length →
    (List.zipWith f as bs).getD j dc = f (as.getD j da) (bs.getD j db) := by
  intro as
  induction as with
  | nil => intro bs j h1 _; simp at h1
  | cons a at' ih =>
    intro bs j h1 h2
    cases bs with
    | nil => simp at h2
    | cons b bt =>
      cases j with
      | zero => simp
      | succ j =>
        simp only [List.zipWith_cons_cons, List.getD_cons_succ]
        exact ih bt j (by simpa using h1) (by simpa using h2)

theorem zipW3_length {α β γ δ : Type} {f : α → β → γ → δ} :
    ∀ (as : List α) (bs : List β) (cs : List γ),
    (zipW3 f as bs cs).length = min as.length (min bs.length cs.length) := by
  intro as
  induction as with
  | nil => intro bs cs; simp [zipW3]
  | cons a at' ih =>
    intro bs cs
    cases bs with
    | nil => simp [zipW3]
    | cons b bt =>
      cases cs with
      | nil => simp [zipW3]
      | cons c ct => simp [zipW3, ih bt ct]; omega

/-- The row invariant of the phonetic engine's main loop: unmodified rows
still hold their original string, and every row is either original or the
result of exactly ONE flag application of ONE rule to the original. -/
def PhonRowInv (rules : List PhoneticRule) (srs : Series) (out : Series)
    (md : List Bool) : Prop :=
  out.length = srs.length ∧ md.length = srs.length ∧
  ∀ j, j < srs.length →
    (md.getD j false = false → out.getD j [] = srs.getD j []) ∧
    (out.getD j [] = srs.getD j [] ∨
      ∃ r ∈ rules, ∃ f, out.getD j [] = applyFlagRepl f r (srs.getD j []))

theorem phoneticFlagStep_inv {rules : List PhoneticRule} {srs : Series}
    {r : PhoneticRule} (hr : r ∈ rules) {cand : List Bool} (f : Char)
    {st : Series × List Bool} (hc : cand.length = srs.length)
    (h : PhonRowInv rules srs st.1 st.2) :
    PhonRowInv rules srs (phoneticFlagStep r cand f st).1
      (phoneticFlagStep r cand f st).2 := by
  obtain ⟨h1, h2, hrow⟩ := h
  have hcur : (zipW3 (fun (c : Bool) (s : Str) (m : Bool) =>
      c && flagMask f r.pattern s && !m) cand st.1 st.2).length = srs.length := by
    rw [zipW3_length]
    omega
  refine ⟨?_, ?_, ?_⟩
  · simp only [phoneticFlagStep]
    rw [List.length_zipWith]
    omega
  · simp only [phoneticFlagStep]
    rw [List.length_zipWith]
    omega
  · intro j hj
    have hcj : (zipW3 (fun (c : Bool) (s : Str) (m : Bool) =>
        c && flagMask f r.pattern s && !m) cand st.1 st.2).getD j false =
        (cand.getD j false && flagMask f r.pattern (st.1.getD j []) &&
          !(st.2.getD j false)) :=
      zipW3_getD false ([] : Str) false false cand st.1 st.2 j (by omega) (by omega) (by omega)
    have houtj : (phoneticFlagStep r cand f st).1.getD j [] =
        (if (cand.getD j false && flagMask f r.pattern (st.1.getD j []) &&
            !(st.2.getD j false)) then applyFlagRepl f r (st.1.getD j [])
          else st.1.getD j []) := by
      simp only [phoneticFlagStep]
      rw [zipWith_getD false ([] : Str) ([] : Str) _ _ j (by omega) (by omega), hcj]
    have hmdj : (phoneticFlagStep r cand f st).2.getD j false =
        (st.2.getD j false ||
          (cand.getD j false && flagMask f r.pattern (st.1.getD j []) &&
            !(st.2.getD j false))) := by
      simp only [phoneticFlagStep]
      rw [zipWith_getD false false false _ _ j (by omega) (by omega), hcj]
    obtain ⟨hunmod, hone⟩ := hrow j hj
    by_cases hmd : st.2.getD j false = true
    · -- already modified: the mask excludes the row
      have hcur0 : (cand.getD j false && flagMask f r.pattern (st.1.getD j []) &&
          !(st.2.getD j false)) = false := by
        rw [hmd]
        simp
      rw [hcur0] at houtj hmdj
      simp only [if_neg (by simp : ¬ (false = true))] at houtj
      constructor
      · intro hmd'
        rw [hmdj, hmd] at hmd'
        simp at hmd'
      · rw [houtj]
        exact hone
    · have hmdf : st.2.getD j false = false := by simpa using hmd
      have horig : st.1.getD j [] = srs.getD j [] := hunmod hmdf
      by_cases hcurb : (cand.getD j false && flagMask f r.pattern (st.1.getD j []) &&
          !(st.2.getD j false)) = true
      · rw [hcurb] at houtj hmdj
        simp only [if_true] at houtj
        constructor
        · intro hmd'
          rw [hmdj, hmdf] at hmd'
          simp at hmd'
        · right
          exact ⟨r, hr, f, by rw [houtj, horig]⟩
      · have hcurf : (cand.getD j false && flagMask f r.pattern (st.1.getD j []) &&
            !(st.2.getD j false)) = false := by simpa using hcurb
        rw [hcurf] at houtj hmdj
        simp only [if_neg (by simp : ¬ (false = true))] at houtj
        constructor
        · intro _
          rw [houtj]
          exact horig
        · rw [houtj]
          exact hone

theorem phoneticRuleStep_inv {rules : List PhoneticRule} {srs : Series}
    {r : PhoneticRule} (hr : r ∈ rules) (st : Series × List Bool × Rng)
    (h : PhonRowInv rules srs st.1 st.2.1) :
    PhonRowInv rules srs (phoneticRuleStep srs rules st r).1
      (phoneticRuleStep srs rules st r).2.1 := by
  have hcand : (List.zipWith (fun s v => decide (v < phoneticProb rules s) &&
      decide (phoneticFlags r s ≠ [])) srs (st.2.2.nextN srs.length).1).length =
      srs.length := by
    rw [List.length_zipWith, Rng.nextN_length]
    omega
  have hfold : ∀ (fl : List Char) (ob : Series × List Bool),
      PhonRowInv rules srs ob.1 ob.2 →
      PhonRowInv rules srs
        (fl.foldl (fun acc f => phoneticFlagStep r
          (List.zipWith (fun s v => decide (v < phoneticProb rules s) &&
            decide (phoneticFlags r s ≠ [])) srs (st.2.2.nextN srs.length).1) f acc) ob).1
        (fl.foldl (fun acc f => phoneticFlagStep r
          (List.zipWith (fun s v => decide (v < phoneticProb rules s) &&
            decide (phoneticFlags r s ≠ [])) srs (st.2.2.nextN srs.length).1) f acc) ob).2 := by
    intro fl
    induction fl with
    | nil => intro ob hob; exact hob
    | cons f ft ih =>
      intro ob hob
      exact ih _ (phoneticFlagStep_inv hr f hcand hob)
  exact hfold _ (st.1, st.2.1) h

/-- C4. Mutual exclusion in the phonetic engine: every output string is either
the input string or the result of exactly ONE position-flag replacement of
ONE rule applied to the input string — never of two rules, and never of two
flags of the same rule (the `mask_modified_rows` bookkeeping excludes a row
from every later flag and rule once one replacement has touched it). -/
theorem c4_mutual_exclusion (rules : List PhoneticRule) (srs : Series) (rng : Rng)
    (j : Nat) (hj : j < srs.length) :
    (corruptPhonetic rules srs rng).1.getD j [] = srs.getD j [] ∨
    ∃ r ∈ rules, ∃ f, (corruptPhonetic rules srs rng).1.getD j [] =
      applyFlagRepl f r (srs.getD j []) := by
  have hfold : ∀ (rs : List PhoneticRule), (∀ x ∈ rs, x ∈ rules) →
      ∀ (st : Series × List Bool × Rng), PhonRowInv rules srs st.1 st.2.1 →
      PhonRowInv rules srs (rs.foldl (phoneticRuleStep srs rules) st).1
        (rs.foldl (phoneticRuleStep srs rules) st).2.1 := by
    intro rs
    induction rs with
    | nil => intro _ st h; exact h
    | cons r rt ih =>
      intro hsub st h
      exact ih (fun x hx => hsub x (List.mem_cons_of_mem r hx)) _
        (phoneticRuleStep_inv (hsub r (List.mem_cons_self r rt)) st h)
  have hinit : PhonRowInv rules srs srs (List.replicate srs.length false) := by
    refine ⟨rfl, List.length_replicate _ _, ?_⟩
    intro j' _
    exact ⟨fun _ => rfl, Or.inl rfl⟩
  have hfin := hfold rules (fun x hx => hx) (srs, List.replicate srs.length false, rng) hinit
  have hcor : (corruptPhonetic rules srs rng).1 =
      (rules.foldl (phoneticRuleStep srs rules)
        (srs, List.replicate srs.length false, rng)).1 := rfl
  rw [hcor]
  exact (hfin.2.2 j hj).2

/-- Witness for C4: one rule `a → b` anchored at the start, input `["a"]`. -/
theorem c4_mutual_exclusion_witness :
    (corruptPhonetic [⟨['a'], ['b'], ['^']⟩] [['a']] ⟨[]⟩).1.getD 0 [] = ['a'] ∨
    ∃ r ∈ [(⟨['a'], ['b'], ['^']⟩ : PhoneticRule)], ∃ f,
      (corruptPhonetic [⟨['a'], ['b'], ['^']⟩] [['a']] ⟨[]⟩).1.getD 0 [] =
        applyFlagRepl f r ['a'] :=
  c4_mutual_exclusion [⟨['a'], ['b'], ['^']⟩] [['a']] ⟨[]⟩ 0 (by decide)

/-! ## C5: what the flag computation actually is -/

theorem strFindInt_eq_zero {s pat : Str} :
    strFindInt s pat = 0 ↔ occursAt s pat 0 = true := by
  cases hf : strFindOpt s pat with
  | none =>
    simp only [strFindInt, hf]
    constructor
    · intro h
      exact absurd h (by decide)
    · intro hocc
      have h0 : strFindOpt s pat = some 0 :=
        strFindOpt_eq_some.mpr ⟨hocc, fun k hk => absurd hk (Nat.not_lt_zero k)⟩
      rw [hf] at h0
      exact absurd h0 (by simp)
  | some i =>
    simp only [strFindInt, hf]
    constructor
    · intro h0
      have hi : i = 0 := by exact_mod_cast h0
      subst hi
      exact (strFindOpt_eq_some.mp hf).1
    · intro hocc
      have hi : i = 0 := by
        by_contra hne
        have hk := (strFindOpt_eq_some.mp hf).2 0 (Nat.pos_of_ne_zero hne)
        rw [hk] at hocc
        exact absurd hocc (by simp)
      subst hi
      simp

/-- Flag-string membership unfolding for `phoneticFlags`. -/
theorem phoneticFlags_mem (r : PhoneticRule) (s : Str) :
    ('^' ∈ phoneticFlags r s ↔ '^' ∈ r.flags ∧ strFindInt s r.pattern = 0) ∧
    ('$' ∈ phoneticFlags r s ↔ '$' ∈ r.flags ∧
      strFindInt s r.pattern + (r.pattern.length : Int) = (s.length : Int)) ∧
    ('_' ∈ phoneticFlags r s ↔ '_' ∈ r.flags ∧ 0 < strFindInt s r.pattern ∧
      strFindInt s r.pattern + (r.pattern.length : Int) < (s.length : Int)) := by
  by_cases c1 : '^' ∈ r.flags ∧ strFindInt s r.pattern = 0 <;>
  by_cases c2 : '$' ∈ r.flags ∧
      strFindInt s r.pattern + (r.pattern.length : Int) = (s.length : Int) <;>
  by_cases c3 : '_' ∈ r.flags ∧ 0 < strFindInt s r.pattern ∧
      strFindInt s r.pattern + (r.pattern.length : Int) < (s.length : Int) <;>
  simp [phoneticFlags, c1, c2, c3]

/-- C5 (amended). The eligibility flags come from the FIRST occurrence of the
pattern (`str.find`), not from the set of all occurrences: the start flag is
set iff allowed and the pattern occurs at position 0; the end flag iff allowed
and `find + len(pattern) == len(s)` — true when the first occurrence is a
suffix, and spuriously when the pattern is absent (`find == -1`) and
`len(s) == len(pattern) - 1`; the middle flag iff allowed and the first
occurrence lies strictly inside. `strFindOpt` is genuinely first-occurrence
search, and strings whose flag string is empty for every rule are never
modified. -/
theorem c5_flag_semantics (r : PhoneticRule) (s : Str) :
    ('^' ∈ phoneticFlags r s ↔ '^' ∈ r.flags ∧ occursAt s r.pattern 0 = true) ∧
    ('$' ∈ phoneticFlags r s ↔ '$' ∈ r.flags ∧
      ((∃ i, strFindOpt s r.pattern = some i ∧ i + r.pattern.length = s.length) ∨
       (strFindOpt s r.pattern = none ∧ s.length + 1 = r.pattern.length))) ∧
    ('_' ∈ phoneticFlags r s ↔ '_' ∈ r.flags ∧
      (∃ i, strFindOpt s r.pattern = some i ∧ 0 < i ∧
        i + r.pattern.length < s.length)) ∧
    (∀ i, strFindOpt s r.pattern = some i ↔
      (occursAt s r.pattern i = true ∧ ∀ k < i, occursAt s r.pattern k = false)) ∧
    (∀ (rules : List PhoneticRule) (srs : Series) (rng : Rng) (j : Nat),
      j < srs.length → (∀ r' ∈ rules, phoneticFlags r' (srs.getD j []) = []) →
      (corruptPhonetic rules srs rng).1.getD j [] = srs.getD j []) := by
  obtain ⟨hm1, hm2, hm3⟩ := phoneticFlags_mem r s
  refine ⟨?_, ?_, ?_, fun i => strFindOpt_eq_some, ?_⟩
  · rw [hm1, strFindInt_eq_zero]
  · rw [hm2]
    cases hf : strFindOpt s r.pattern with
    | none =>
      simp only [strFindInt, hf]
      constructor
      · rintro ⟨ha, hb⟩
        exact ⟨ha, Or.inr ⟨by simp, by omega⟩⟩
      · rintro ⟨ha, ⟨i, hi, _⟩ | ⟨_, hb⟩⟩
        · exact absurd hi (by simp)
        · exact ⟨ha, by omega⟩
    | some i =>
      simp only [strFindInt, hf]
      constructor
      · rintro ⟨ha, hb⟩
        refine ⟨ha, Or.inl ⟨i, rfl, ?_⟩⟩
        exact_mod_cast hb
      · rintro ⟨ha, ⟨i', hi', he⟩ | ⟨hi', _⟩⟩
        · injection hi' with hi'
          subst hi'
          exact ⟨ha, by exact_mod_cast he⟩
        · exact absurd hi' (by simp)
  · rw [hm3]
    cases hf : strFindOpt s r.pattern with
    | none =>
      simp only [strFindInt, hf]
      constructor
      · rintro ⟨_, hb, _⟩
        exact absurd hb (by decide)
      · rintro ⟨_, i, hi, _⟩
        exact absurd hi (by simp)
    | some i =>
      simp only [strFindInt, hf]
      constructor
      · rintro ⟨ha, hb, hc⟩
        refine ⟨ha, i, rfl, ?_, ?_⟩
        · exact_mod_cast hb
        · exact_mod_cast hc
      · rintro ⟨ha, i', hi', hb, hc⟩
        injection hi' with hi'
        subst hi'
        exact ⟨ha, by exact_mod_cast hb, by exact_mod_cast hc⟩
  · -- rows with an empty flag string for every rule are never candidates
    intro rules srs rng j hj hall
    suffices h : ∀ (rs : List PhoneticRule), (∀ x ∈ rs, x ∈ rules) →
        ∀ st : Series × List Bool × Rng, st.1.length = srs.length →
        st.2.1.length = srs.length → st.1.getD j [] = srs.getD j [] →
        ((rs.foldl (phoneticRuleStep srs rules) st).1.length = srs.length ∧
         (rs.foldl (phoneticRuleStep srs rules) st).2.1.length = srs.length ∧
         (rs.foldl (phoneticRuleStep srs rules) st).1.getD j [] = srs.getD j []) by
      have hres := h rules (fun x hx => hx) (srs, List.replicate srs.length false, rng)
        rfl (List.length_replicate _ _) rfl
      exact hres.2.2
    intro rs
    induction rs with
    | nil => intro _ st h1 h2 h3; exact ⟨h1, h2, h3⟩
    | cons r' rt ih =>
      intro hsub st h1 h2 h3
      have hr' : r' ∈ rules := hsub r' (List.mem_cons_self r' rt)
      have hstep : (phoneticRuleStep srs rules st r').1.length = srs.length ∧
          (phoneticRuleStep srs rules st r').2.1.length = srs.length ∧
          (phoneticRuleStep srs rules st r').1.getD j [] = srs.getD j [] := by
        have hcand : (List.zipWith (fun s v => decide (v < phoneticProb rules s) &&
            decide (phoneticFlags r' s ≠ [])) srs (st.2.2.nextN srs.length).1).length =
            srs.length := by
          rw [List.length_zipWith, Rng.nextN_length]
          omega
        have hcandj : (List.zipWith (fun s v => decide (v < phoneticProb rules s) &&
            decide (phoneticFlags r' s ≠ [])) srs (st.2.2.nextN srs.length).1).getD j false =
            false := by
          rw [zipWith_getD ([] : Str) (0 : ℚ) false _ _ j hj
            (by rw [Rng.nextN_length]; omega)]
          rw [hall r' hr']
          simp
        have hfl : ∀ (fl : List Char) (ob : Series × List Bool),
            ob.1.length = srs.length → ob.2.length = srs.length →
            ob.1.getD j [] = srs.getD j [] →
            ((fl.foldl (fun acc f => phoneticFlagStep r'
              (List.zipWith (fun s v => decide (v < phoneticProb rules s) &&
                decide (phoneticFlags r' s ≠ [])) srs (st.2.2.nextN srs.length).1) f acc) ob).1.length = srs.length ∧
             (fl.foldl (fun acc f => phoneticFlagStep r'
              (List.zipWith (fun s v => decide (v < phoneticProb rules s) &&
                decide (phoneticFlags r' s ≠ [])) srs (st.2.2.nextN srs.length).1) f acc) ob).2.length = srs.length ∧
             (fl.foldl (fun acc f => phoneticFlagStep r'
              (List.zipWith (fun s v => decide (v < phoneticProb rules s) &&
                decide (phoneticFlags r' s ≠ [])) srs (st.2.2.nextN srs.length).1) f acc) ob).1.getD j [] = srs.getD j []) := by
          intro fl
          induction fl with
          | nil => intro ob g1 g2 g3; exact ⟨g1, g2, g3⟩
          | cons f ft ihf =>
            intro ob g1 g2 g3
            refine ihf _ ?_ ?_ ?_
            · simp only [phoneticFlagStep]
              rw [List.length_zipWith, zipW3_length]
              omega
            · simp only [phoneticFlagStep]
              rw [List.length_zipWith, zipW3_length]
              omega
            · have hcurj : (zipW3 (fun (c : Bool) (s : Str) (m : Bool) =>
                  c && flagMask f r'.pattern s && !m)
                  (List.zipWith (fun s v => decide (v < phoneticProb rules s) &&
                    decide (phoneticFlags r' s ≠ [])) srs (st.2.2.nextN srs.length).1)
                  ob.1 ob.2).getD j false = false := by
                rw [zipW3_getD false ([] : Str) false false
                  _ _ _ j (by omega) (by omega) (by omega), hcandj]
                simp
              simp only [phoneticFlagStep]
              rw [zipWith_getD false ([] : Str) ([] : Str) _ _ j
                (by rw [zipW3_length]; omega) (by omega), hcurj]
              simpa using g3
        exact hfl _ (st.1, st.2.1) h1 h2 h3
      exact ih (fun x hx => hsub x (List.mem_cons_of_mem r' hx)) _
        hstep.1 hstep.2.1 hstep.2.2

/-- Witness for C5's conditional parts: the rule `ab → X` restricted to `$`
against `"cab"` (a genuine suffix occurrence), and a no-eligible-rule series
passing through `corruptPhonetic` unchanged. -/
theorem c5_flag_semantics_witness :
    ('$' ∈ phoneticFlags ⟨['a', 'b'], ['X'], ['$']⟩ ['c', 'a', 'b'] ↔
      '$' ∈ (['$'] : Str) ∧
      ((∃ i, strFindOpt ['c', 'a', 'b'] ['a', 'b'] = some i ∧ i + 2 = 3) ∨
       (strFindOpt ['c', 'a', 'b'] ['a', 'b'] = none ∧ 3 + 1 = 2))) ∧
    (corruptPhonetic [⟨['x'], ['y'], ['^']⟩] [['a']] ⟨[]⟩).1.getD 0 [] = ['a'] := by
  constructor
  · exact (c5_flag_semantics ⟨['a', 'b'], ['X'], ['$']⟩ ['c', 'a', 'b']).2.1
  · exact (c5_flag_semantics ⟨['x'], ['y'], ['^']⟩ ['c', 'a', 'b']).2.2.2.2
      [⟨['x'], ['y'], ['^']⟩] [['a']] ⟨[]⟩ 0 (by decide) (by decide)

/-- C5 (counterexample to the claim as stated): the flags are NOT the
intersection of the allowed flags with the occurrence positions. For the rule
`a → X` with all flags allowed and the string `"aba"`, `"a"` occurs as a
suffix but the end flag is not set (the first occurrence, at 0, is not a
suffix); and for the rule `ab → X` with all flags allowed and the string
`"a"`, the pattern does not occur at all yet the end flag IS set
(`find == -1` and `-1 + 2 == 1 == len("a")`). -/
theorem c5_flags_counterexample :
    (phoneticFlags ⟨['a'], ['X'], ['^', '$', '_']⟩ ['a', 'b', 'a'] ≠
      specPhoneticFlags ⟨['a'], ['X'], ['^', '$', '_']⟩ ['a', 'b', 'a']) ∧
    phoneticFlags ⟨['a'], ['X'], ['^', '$', '_']⟩ ['a', 'b', 'a'] = ['^'] ∧
    specPhoneticFlags ⟨['a'], ['X'], ['^', '$', '_']⟩ ['a', 'b', 'a'] = ['^', '$'] ∧
    phoneticFlags ⟨['a', 'b'], ['X'], ['^', '$', '_']⟩ ['a'] = ['$'] ∧
    specPhoneticFlags ⟨['a', 'b'], ['X'], ['^', '$', '_']⟩ ['a'] = [] := by
  refine ⟨?_, ?_, ?_, ?_, ?_⟩ <;> decide

/-! ## C6: keymap candidate dictionary and neighbor containment -/

/-- The invariant the construction guarantees for
`kb_char_to_candidates_dict`: a character is never its own candidate (line
141 filters `kb_char_candidate != kb_char`) and only non-empty candidate
sets are stored (line 145). -/
def CandOK (cand : List (Char × List Char)) : Prop :=
  ∀ p ∈ cand, p.1 ∉ p.2 ∧ p.2 ≠ []

theorem mem_insertSortedChar {a x : Char} :
    ∀ {l : List Char}, a ∈ insertSortedChar x l ↔ a = x ∨ a ∈ l := by
  intro l
  induction l with
  | nil => simp [insertSortedChar]
  | cons y ys ih =>
    rw [insertSortedChar]
    by_cases h : x ≤ y
    · simp [h]
    · simp only [if_neg h, List.mem_cons, ih]
      tauto

theorem mem_sortChars {a : Char} : ∀ {l : List Char}, a ∈ sortChars l ↔ a ∈ l := by
  intro l
  induction l with
  | nil => simp [sortChars]
  | cons x xs ih =>
    simp only [sortChars, List.foldr_cons, mem_insertSortedChar, List.mem_cons]
    rw [show xs.foldr insertSortedChar [] = sortChars xs from rfl, ih]

theorem mem_uniqFirst_aux [DecidableEq α] {a : α} :
    ∀ (l acc : List α),
      a ∈ l.foldl (fun acc x => if x ∈ acc then acc else acc ++ [x]) acc ↔
      a ∈ acc ∨ a ∈ l := by
  intro l
  induction l with
  | nil => simp
  | cons x xs ih =>
    intro acc
    rw [List.foldl_cons]
    by_cases hx : x ∈ acc
    · rw [if_pos hx, ih]
      simp only [List.mem_cons]
      constructor
      · rintro (h | h)
        · exact Or.inl h
        · exact Or.inr (Or.inr h)
      · rintro (h | rfl | h)
        · exact Or.inl h
        · exact Or.inl hx
        · exact Or.inr h
    · rw [if_neg hx, ih]
      simp only [List.mem_append, List.mem_singleton, List.mem_cons]
      tauto

theorem mem_uniqFirst [DecidableEq α] {a : α} {l : List α} :
    a ∈ uniqFirst l ↔ a ∈ l := by
  rw [uniqFirst, mem_uniqFirst_aux]
  simp

theorem candOK_assocSet {l : List (Char × List Char)} {c : Char} {v : List Char}
    (hl : CandOK l) (hc : c ∉ v) (hv : v ≠ []) : CandOK (assocSet l c v) := by
  intro p hp
  rw [assocSet] at hp
  by_cases ha : l.any (fun q => q.1 = c)
  · rw [if_pos ha] at hp
    obtain ⟨q, hq, hfq⟩ := List.mem_map.mp hp
    by_cases hqc : q.1 = c
    · rw [if_pos hqc] at hfq
      rw [← hfq]
      exact ⟨hc, hv⟩
    · rw [if_neg hqc] at hfq
      rw [← hfq]
      exact hl q hq
  · rw [if_neg ha] at hp
    rcases List.mem_append.mp hp with h | h
    · exact hl p h
    · rw [List.mem_singleton.mp h]
      exact ⟨hc, hv⟩

theorem buildCandidates_candOK (positions : List KbPos) (kbmap : KbPos → Option Char)
    (neighbors : KbPos → List KbPos) :
    CandOK (buildCandidates positions kbmap neighbors) := by
  rw [buildCandidates]
  suffices h : ∀ (ps : List KbPos) (acc : List (Char × List Char)), CandOK acc →
      CandOK (ps.foldl (fun acc p =>
        match kbmap p with
        | none => acc
        | some c =>
          let cands := sortChars (uniqFirst (((neighbors p).filterMap kbmap).filter (· ≠ c)))
          if cands = [] then acc else assocSet acc c cands) acc) by
    exact h positions [] (fun p hp => absurd hp (List.not_mem_nil p))
  intro ps
  induction ps with
  | nil => intro acc hacc; exact hacc
  | cons p pt ih =>
    intro acc hacc
    rw [List.foldl_cons]
    refine ih _ ?_
    cases hk : kbmap p with
    | none => simpa [hk] using hacc
    | some c =>
      simp only [hk]
      by_cases hnil :
          sortChars (uniqFirst (((neighbors p).filterMap kbmap).filter (· ≠ c))) = []
      · rw [if_pos hnil]
        exact hacc
      · rw [if_neg hnil]
        refine candOK_assocSet hacc ?_ hnil
        intro hmem
        rw [mem_sortChars, mem_uniqFirst] at hmem
        have := List.of_mem_filter hmem
        simp at this

theorem lookupPair_mem {c : Char} {cs : List Char} :
    ∀ {l : List (Char × List Char)}, l.lookup c = some cs → (c, cs) ∈ l := by
  intro l
  induction l with
  | nil => intro h; exact absurd h (by simp [List.lookup])
  | cons p pt ih =>
    intro h
    by_cases hc : c = p.1
    · have hb : (c == p.1) = true := by simpa using hc
      rw [List.lookup, hb] at h
      injection h with h
      have hp : p = (c, cs) := by
        cases p with
        | mk a b =>
          simp only [Prod.mk.injEq]
          exact ⟨(by simpa using hc.symm), h⟩
      rw [hp]
      exact List.mem_cons_self _ _
    · have hb : (c == p.1) = false := by simpa using hc
      rw [List.lookup, hb] at h
      exact List.mem_cons_of_mem p (ih h)

/-- The per-position specification of `assignRepl`: rows whose selected
character is `c` get a candidate from `cs`, others keep their value; the
generator stays wellformed. -/
theorem assignRepl_spec (c : Char) (cs : List Char) (hcs : cs ≠ []) :
    ∀ (typos repl : List (Option Char)) (rng : Rng), rng.WF →
      repl.length = typos.length →
      ((assignRepl c cs typos repl rng).1.length = typos.length ∧
       (assignRepl c cs typos repl rng).2.WF ∧
       ∀ j, j < typos.length →
         ((typos.getD j none = some c →
            ∃ c' ∈ cs, (assignRepl c cs typos repl rng).1.getD j none = some c') ∧
          (typos.getD j none ≠ some c →
            (assignRepl c cs typos repl rng).1.getD j none = repl.getD j none))) := by
  intro typos
  induction typos with
  | nil =>
    intro repl rng hwf hlen
    refine ⟨?_, ?_, ?_⟩
    · cases repl <;> simp [assignRepl]
    · cases repl <;> simpa [assignRepl] using hwf
    · intro j hj; simp at hj
  | cons t ts ih =>
    intro repl rng hwf hlen
    cases repl with
    | nil => simp at hlen
    | cons r rs =>
      have hlen' : rs.length = ts.length := by simpa using hlen
      by_cases ht : t = some c
      · obtain ⟨hv, hwf'⟩ := Rng.next_wf hwf
        obtain ⟨ihl, ihw, ihp⟩ := ih rs rng.next.2 hwf' hlen'
        refine ⟨?_, ?_, ?_⟩
        · simp only [assignRepl, if_pos ht]
          simpa using ihl
        · simp only [assignRepl, if_pos ht]
          exact ihw
        · intro j hj
          cases j with
          | zero =>
            refine ⟨fun _ => ⟨chooseFrom cs rng.next.1, chooseFrom_mem hcs hv.1 hv.2, ?_⟩,
              fun hne => absurd ht hne⟩
            simp [assignRepl, if_pos ht]
          | succ j =>
            have hj' : j < ts.length := by simpa using hj
            have := ihp j hj'
            simpa [assignRepl, if_pos ht] using this
      · obtain ⟨ihl, ihw, ihp⟩ := ih rs rng hwf hlen'
        refine ⟨?_, ?_, ?_⟩
        · simp only [assignRepl, if_neg ht]
          simpa using ihl
        · simp only [assignRepl, if_neg ht]
          exact ihw
        · intro j hj
          cases j with
          | zero =>
            exact ⟨fun h0 => absurd h0 ht, fun _ => by simp [assignRepl, if_neg ht]⟩
          | succ j =>
            have hj' : j < ts.length := by simpa using hj
            have := ihp j hj'
            simpa [assignRepl, if_neg ht] using this

theorem getD_replicate_none {n j : Nat} :
    (List.replicate n (none : Option Char)).getD j none = none := by
  rw [List.getD_eq_getElem?_getD, List.getElem?_replicate]
  by_cases h : j < n <;> simp [h]

/-- C6. Keyboard-typo neighbor containment: for a candidate dictionary with
the construction's invariant (which `buildCandidates` always satisfies —
first conjunct), every output row either equals the input row or is the input
with EXACTLY one position spliced, the new character drawn from the candidate
entry of the replaced character and distinct from it; a selected character
with no dictionary entry is never altered, and an empty string is always
returned unchanged. -/
theorem c6_keymap_neighbor_containment (cand : List (Char × List Char))
    (hcand : CandOK cand) (srs : Series) (rng : Rng) (hwf : rng.WF)
    (j : Nat) (hj : j < srs.length) :
    (∀ (positions : List KbPos) (kbmap : KbPos → Option Char)
      (neighbors : KbPos → List KbPos),
      CandOK (buildCandidates positions kbmap neighbors)) ∧
    ((corruptKeymap cand srs rng).1.getD j [] = srs.getD j [] ∨
      ∃ i, i < (srs.getD j []).length ∧ ∃ cs c',
        cand.lookup ((srs.getD j []).getD i 'a') = some cs ∧ c' ∈ cs ∧
        c' ≠ (srs.getD j []).getD i 'a' ∧
        (corruptKeymap cand srs rng).1.getD j [] =
          (srs.getD j []).take i ++ [c'] ++ (srs.getD j []).drop (i + 1)) ∧
    (srs.getD j [] = [] →
      (corruptKeymap cand srs rng).1.getD j [] = srs.getD j []) := by
  have hout : (corruptKeymap cand srs rng).1 =
      zipW3 keymapSplice srs (keymapIdxs srs (rng.nextN srs.length).1)
        ((uniqFirst (keymapTypos srs (keymapIdxs srs (rng.nextN srs.length).1))).foldl
          (keymapCharStep cand (keymapTypos srs (keymapIdxs srs (rng.nextN srs.length).1)))
          (List.replicate srs.length none, (rng.nextN srs.length).2)).1 := rfl
  set idxs := keymapIdxs srs (rng.nextN srs.length).1 with hidxs
  set typos := keymapTypos srs idxs with htypos
  have hidxlen : idxs.length = srs.length := by
    rw [hidxs, keymapIdxs, List.length_zipWith, Rng.nextN_length]
    omega
  have htylen : typos.length = srs.length := by
    rw [htypos, keymapTypos, List.length_zipWith, hidxlen]
    omega
  have hfold : ∀ (ts : List (Option Char)) (acc : List (Option Char) × Rng),
      acc.1.length = typos.length → acc.2.WF →
      (∀ j', j' < typos.length → acc.1.getD j' none = none ∨
        ∃ c cs c', typos.getD j' none = some c ∧ cand.lookup c = some cs ∧
          c' ∈ cs ∧ acc.1.getD j' none = some c') →
      ((ts.foldl (keymapCharStep cand typos) acc).1.length = typos.length ∧
       (∀ j', j' < typos.length →
        (ts.foldl (keymapCharStep cand typos) acc).1.getD j' none = none ∨
        ∃ c cs c', typos.getD j' none = some c ∧ cand.lookup c = some cs ∧
          c' ∈ cs ∧
          (ts.foldl (keymapCharStep cand typos) acc).1.getD j' none = some c')) := by
    intro ts
    induction ts with
    | nil => intro acc h1 _ h3; exact ⟨h1, h3⟩
    | cons t tt ih =>
      intro acc h1 h2 h3
      rw [List.foldl_cons]
      have hstep : (keymapCharStep cand typos acc t).1.length = typos.length ∧
          (keymapCharStep cand typos acc t).2.WF ∧
          (∀ j', j' < typos.length →
            (keymapCharStep cand typos acc t).1.getD j' none = none ∨
            ∃ c cs c', typos.getD j' none = some c ∧ cand.lookup c = some cs ∧
              c' ∈ cs ∧ (keymapCharStep cand typos acc t).1.getD j' none = some c') := by
        cases t with
        | none => exact ⟨h1, h2, h3⟩
        | some c =>
          cases hl : cand.lookup c with
          | none =>
            have heq : keymapCharStep cand typos acc (some c) = acc := by
              simp [keymapCharStep, hl]
            rw [heq]
            exact ⟨h1, h2, h3⟩
          | some cs =>
            have hmem := lookupPair_mem hl
            have hcs : cs ≠ [] := (hcand _ hmem).2
            have hspec := assignRepl_spec c cs hcs typos acc.1 acc.2 h2 h1
            have hstepeq : keymapCharStep cand typos acc (some c) =
                assignRepl c cs typos acc.1 acc.2 := by
              simp [keymapCharStep, hl]
            rw [hstepeq]
            refine ⟨hspec.1, hspec.2.1, ?_⟩
            intro j' hj'
            by_cases ht : typos.getD j' none = some c
            · obtain ⟨c', hc', heq⟩ := (hspec.2.2 j' hj').1 ht
              exact Or.inr ⟨c, cs, c', ht, hl, hc', heq⟩
            · rw [(hspec.2.2 j' hj').2 ht]
              exact h3 j' hj'
      exact ih _ hstep.1 hstep.2.1 hstep.2.2
  have hinit3 : ∀ j', j' < typos.length →
      (List.replicate srs.length (none : Option Char)).getD j' none = none ∨
      ∃ c cs c', typos.getD j' none = some c ∧ cand.lookup c = some cs ∧
        c' ∈ cs ∧
        (List.replicate srs.length (none : Option Char)).getD j' none = some c' :=
    fun j' _ => Or.inl getD_replicate_none
  have hres := hfold (uniqFirst typos)
    (List.replicate srs.length none, (rng.nextN srs.length).2)
    (by rw [List.length_replicate, htylen])
    (Rng.nextN_wf hwf srs.length).2 hinit3
  set repls := ((uniqFirst typos).foldl (keymapCharStep cand typos)
    (List.replicate srs.length none, (rng.nextN srs.length).2)).1 with hrepls
  have hmain : (corruptKeymap cand srs rng).1.getD j [] = srs.getD j [] ∨
      ∃ i, i < (srs.getD j []).length ∧ ∃ cs c',
        cand.lookup ((srs.getD j []).getD i 'a') = some cs ∧ c' ∈ cs ∧
        c' ≠ (srs.getD j []).getD i 'a' ∧
        (corruptKeymap cand srs rng).1.getD j [] =
          (srs.getD j []).take i ++ [c'] ++ (srs.getD j []).drop (i + 1) := by
    have houtj : (corruptKeymap cand srs rng).1.getD j [] =
        keymapSplice (srs.getD j []) (idxs.getD j 0) (repls.getD j none) := by
      rw [hout]
      exact zipW3_getD ([] : Str) 0 (none : Option Char) ([] : Str)
        srs idxs repls j hj (by omega) (by omega)
    have htyj : typos.getD j none = (srs.getD j [])[idxs.getD j 0]? := by
      rw [htypos, keymapTypos]
      exact zipWith_getD ([] : Str) 0 (none : Option Char) srs idxs j hj (by omega)
    cases hrep : repls.getD j none with
    | none =>
      left
      rw [houtj, hrep]
      rfl
    | some c'' =>
      rcases hres.2 j (by omega) with hnone | ⟨c, cs, c', hty, hl, hc', heq⟩
      · rw [hnone] at hrep
        exact absurd hrep (by simp)
      · right
        rw [hty] at htyj
        obtain ⟨hilt, higet⟩ := List.getElem?_eq_some.mp htyj.symm
        refine ⟨idxs.getD j 0, hilt, cs, c', ?_, hc', ?_, ?_⟩
        · rw [List.getD_eq_getElem _ 'a' hilt, higet]
          exact hl
        · rw [List.getD_eq_getElem _ 'a' hilt, higet]
          intro hcontra
          exact absurd (hcontra ▸ hc') (hcand _ (lookupPair_mem hl)).1
        · rw [houtj, heq]
          rfl
  refine ⟨buildCandidates_candOK, hmain, ?_⟩
  intro hemp
  rcases hmain with h | ⟨i, hilt, _⟩
  · exact h
  · rw [hemp] at hilt
    exact absurd hilt (by simp)

/-- Witness for C6: dictionary `{a: "b"}`, input `["a"]`. -/
theorem c6_keymap_neighbor_containment_witness :
    CandOK [('a', ['b'])] ∧ Rng.WF ⟨[]⟩ ∧
    ((corruptKeymap [('a', ['b'])] [['a']] ⟨[]⟩).1.getD 0 [] = List.getD [['a']] 0 [] ∨
      ∃ i, i < (List.getD [['a']] 0 []).length ∧ ∃ cs c',
        List.lookup ((List.getD [['a']] 0 []).getD i 'a') [('a', ['b'])] = some cs ∧
        c' ∈ cs ∧ c' ≠ (List.getD [['a']] 0 []).getD i 'a' ∧
        (corruptKeymap [('a', ['b'])] [['a']] ⟨[]⟩).1.getD 0 [] =
          (List.getD [['a']] 0 []).take i ++ [c'] ++ (List.getD [['a']] 0 []).drop (i + 1)) := by
  have hcand : CandOK [('a', ['b'])] := by
    unfold CandOK
    decide
  have hwf : Rng.WF ⟨[]⟩ := fun v hv => absurd hv (List.not_mem_nil v)
  exact ⟨hcand, hwf,
    (c6_keymap_neighbor_containment [('a', ['b'])] hcand [['a']] ⟨[]⟩ hwf 0 (by decide)).2.1⟩

/-- C7 (counterexample to the claim as stated): `srs.str.fullmatch(value)`
treats the category value as a REGULAR EXPRESSION, not a literal. With the
category file values `["b.", "zz"]` the input row `"ba"` — which is equal to
no known category — is regex-fullmatched by `"b."` and resampled to `"zz"`,
so a row matching no known category (as a string) is NOT left unchanged. -/
theorem c7_categorical_counterexample :
    corruptCategorical [['b', '.'], ['z', 'z']] [['b', 'a']] ⟨[0]⟩ =
      Except.ok ([['z', 'z']], ⟨[]⟩) ∧
    (['b', 'a'] ∉ [['b', '.'], ['z', 'z']]) ∧
    (['z', 'z'] : Str) ≠ ['b', 'a'] := by
  refine ⟨?_, by decide, by decide⟩
  have hdraw : drawIdx 1 0 = 0 := by
    unfold drawIdx
    norm_num
  have huniq : uniqFirst [(['b', '.'] : Str), ['z', 'z']] = [['b', '.'], ['z', 'z']] := by
    decide
  have h1 : reFullmatch ['b', '.'] ['b', 'a'] = true := by decide
  have h2 : reFullmatch ['z', 'z'] ['b', 'a'] = false := by decide
  have hsd1 : setDiff1d [(['b', '.'] : Str), ['z', 'z']] ['b', '.'] = [['z', 'z']] := by
    decide
  have hcp1 : List.countP.go id [true] 0 = 1 := by decide
  have hcp0 : List.countP.go id [false] 0 = 0 := by decide
  rw [corruptCategorical]
  rw [huniq]
  simp only [List.foldl_cons, List.foldl_nil, categoricalValStep]
  simp [h1, h2, hsd1, hcp1, hcp0, assignCatDraws, Rng.next, hdraw, List.countP]

/-! ## C7: categorical resampling for plain (literal) category values -/

/-- Python regex metacharacters: a category value containing none of these is
matched by `re.fullmatch` exactly as a literal string. -/
def regexMetachars : List Char :=
  ['.', '^', '$', '*', '+', '?', '(', ')', '[', ']', '\x7b', '\x7d', '|', '\\']

/-- A plain string: no regex metacharacters, so `fullmatch` is equality. -/
def PlainStr (s : Str) : Prop := ∀ c ∈ s, c ∉ regexMetachars

theorem reFullmatch_plain {p s : Str} (hp : PlainStr p) :
    reFullmatch p s = true ↔ p = s := by
  constructor
  · intro h
    rw [reFullmatch, Bool.and_eq_true] at h
    obtain ⟨hlen, hall⟩ := h
    have hlen' : p.length = s.length := of_decide_eq_true hlen
    clear hlen
    induction p generalizing s with
    | nil =>
      cases s with
      | nil => rfl
      | cons b bs => simp at hlen'
    | cons a as ih =>
      cases s with
      | nil => simp at hlen'
      | cons b bs =>
        rw [List.zip_cons_cons, List.all_cons, Bool.and_eq_true] at hall
        obtain ⟨hhead, htail⟩ := hall
        have ha : a = b := by
          rcases (Bool.or_eq_true _ _).mp hhead with h | h
          · have : a = '.' := of_decide_eq_true h
            exact absurd (this ▸ hp a (List.mem_cons_self a as))
              (by intro hc; exact hc (by decide))
          · exact of_decide_eq_true h
        have has : PlainStr as := fun c hc => hp c (List.mem_cons_of_mem a hc)
        rw [ha, ih has htail (by simpa using hlen')]
  · rintro rfl
    rw [reFullmatch, Bool.and_eq_true]
    refine ⟨by simp, ?_⟩
    induction p with
    | nil => rfl
    | cons a as ih =>
      rw [List.zip_cons_cons, List.all_cons, Bool.and_eq_true]
      exact ⟨by simp, ih (fun c hc => by exact fun hm => hp c (List.mem_cons_of_mem a hc) hm)⟩

theorem mem_insertSortedStr {a x : Str} :
    ∀ {l : List Str}, a ∈ insertSortedStr x l ↔ a = x ∨ a ∈ l := by
  intro l
  induction l with
  | nil => simp [insertSortedStr]
  | cons y ys ih =>
    rw [insertSortedStr]
    by_cases h : strLeB x y = true
    · simp [h]
    · simp only [if_neg h, List.mem_cons, ih]
      tauto

theorem mem_sortStrs {a : Str} : ∀ {l : List Str}, a ∈ sortStrs l ↔ a ∈ l := by
  intro l
  induction l with
  | nil => simp [sortStrs]
  | cons x xs ih =>
    simp only [sortStrs, List.foldr_cons, mem_insertSortedStr, List.mem_cons]
    rw [show xs.foldr insertSortedStr [] = sortStrs xs from rfl, ih]

theorem mem_setDiff1d {u v : Str} {l : List Str} :
    u ∈ setDiff1d l v ↔ u ∈ l ∧ u ≠ v := by
  rw [setDiff1d, mem_sortStrs, List.mem_filter, mem_uniqFirst]
  simp

theorem nodup_uniqFirst [DecidableEq α] (l : List α) : (uniqFirst l).Nodup := by
  rw [uniqFirst]
  suffices h : ∀ (l acc : List α), acc.Nodup →
      (l.foldl (fun acc x => if x ∈ acc then acc else acc ++ [x]) acc).Nodup by
    exact h l [] List.nodup_nil
  intro l
  induction l with
  | nil => intro acc h; exact h
  | cons x xs ih =>
    intro acc hacc
    rw [List.foldl_cons]
    by_cases hx : x ∈ acc
    · rw [if_pos hx]
      exact ih acc hacc
    · rw [if_neg hx]
      refine ih _ ?_
      rw [List.nodup_append]
      exact ⟨hacc, List.nodup_singleton x, by simpa using hx⟩

/-- With at least two distinct known categories, the `setdiff1d` of any value
is non-empty. -/
theorem setDiff1d_ne_nil {l : List Str} (hnd : l.Nodup) (h2 : 2 ≤ l.length)
    (v : Str) : setDiff1d l v ≠ [] := by
  obtain ⟨a, b, rest, hab⟩ : ∃ a b rest, l = a :: b :: rest := by
    cases l with
    | nil => simp at h2
    | cons a t =>
      cases t with
      | nil => simp at h2
      | cons b rest => exact ⟨a, b, rest, rfl⟩
  subst hab
  have hne : a ≠ b := by
    intro h
    subst h
    simp at hnd
  by_cases hv : a = v
  · intro hnil
    have : b ∈ setDiff1d (a :: b :: rest) v := by
      rw [mem_setDiff1d]
      exact ⟨by simp, by rw [← hv]; exact fun h => hne h.symm⟩
    rw [hnil] at this
    exact absurd this (List.not_mem_nil b)
  · intro hnil
    have : a ∈ setDiff1d (a :: b :: rest) v := by
      rw [mem_setDiff1d]
      exact ⟨by simp, hv⟩
    rw [hnil] at this
    exact absurd this (List.not_mem_nil a)

theorem getD_replicate_self {α : Type} {a : α} {n j : Nat} :
    (List.replicate n a).getD j a = a := by
  rw [List.getD_eq_getElem?_getD, List.getElem?_replicate]
  by_cases h : j < n <;> simp [h]

theorem map_getD {α β : Type} {f : α → β} {da : α} {db : β} :
    ∀ (l : List α) (j : Nat), j < l.length → (l.map f).getD j db = f (l.getD j da) := by
  intro l
  induction l with
  | nil => intro j hj; simp at hj
  | cons x xs ih =>
    intro j hj
    cases j with
    | zero => simp
    | succ j => simpa using ih j (by simpa using hj)

/-- Per-position specification of `assignCatDraws`: masked rows get a member
of `others`, unmasked rows keep their value; the generator stays wellformed. -/
theorem assignCatDraws_spec (others : List Str) (hothers : others ≠ []) :
    ∀ (mask : List Bool) (upd : List (Option Str)) (rng : Rng), rng.WF →
      upd.length = mask.length →
      ((assignCatDraws others mask upd rng).1.length = mask.length ∧
       (assignCatDraws others mask upd rng).2.WF ∧
       ∀ j, j < mask.length →
         ((mask.getD j false = true →
            ∃ c' ∈ others, (assignCatDraws others mask upd rng).1.getD j none = some c') ∧
          (mask.getD j false = false →
            (assignCatDraws others mask upd rng).1.getD j none = upd.getD j none))) := by
  intro mask
  induction mask with
  | nil =>
    intro upd rng hwf hlen
    refine ⟨?_, ?_, ?_⟩
    · cases upd <;> simp [assignCatDraws]
    · cases upd <;> simpa [assignCatDraws] using hwf
    · intro j hj; simp at hj
  | cons m ms ih =>
    intro upd rng hwf hlen
    cases upd with
    | nil => simp at hlen
    | cons u us =>
      have hlen' : us.length = ms.length := by simpa using hlen
      cases m with
      | true =>
        obtain ⟨hv, hwf'⟩ := Rng.next_wf hwf
        obtain ⟨ihl, ihw, ihp⟩ := ih us rng.next.2 hwf' hlen'
        have hmem : others.getD (drawIdx others.length rng.next.1) [] ∈ others := by
          have hlt := drawIdx_lt (List.length_pos.mpr hothers) hv.1 hv.2
          rw [List.getD_eq_getElem _ [] hlt]
          exact List.getElem_mem hlt
        refine ⟨by simp [assignCatDraws]; omega, by simp [assignCatDraws]; exact ihw, ?_⟩
        intro j hj
        cases j with
        | zero =>
          exact ⟨fun _ => ⟨others.getD (drawIdx others.length rng.next.1) [], hmem,
            by simp [assignCatDraws]⟩, fun h => by simp at h⟩
        | succ j =>
          have hj' : j < ms.length := by simpa using hj
          have := ihp j hj'
          simpa [assignCatDraws] using this
      | false =>
        obtain ⟨ihl, ihw, ihp⟩ := ih us rng hwf hlen'
        refine ⟨by simp [assignCatDraws]; omega, by simp [assignCatDraws]; exact ihw, ?_⟩
        intro j hj
        cases j with
        | zero =>
          exact ⟨fun h => by simp at h, fun _ => by simp [assignCatDraws]⟩
        | succ j =>
          have hj' : j < ms.length := by simpa using hj
          have := ihp j hj'
          simpa [assignCatDraws] using this

/-- The invariant of the unique-value loop for plain category values: rows
whose value is among the processed categories hold a replacement that is a
known category different from the row's value; all other rows are still
unassigned. -/
theorem catFold_inv (values : List Str) (srs : Series)
    (hplain : ∀ v ∈ values, PlainStr v) (h2 : 2 ≤ (uniqFirst values).length) :
    ∀ (ts done : List Str), uniqFirst values = done ++ ts →
      ∀ (upd : List (Option Str)) (rng : Rng), upd.length = srs.length → rng.WF →
      (∀ j, j < srs.length →
        ((srs.getD j [] ∈ done → ∃ c', upd.getD j none = some c' ∧
            c' ∈ uniqFirst values ∧ c' ≠ srs.getD j []) ∧
         (srs.getD j [] ∉ done → upd.getD j none = none))) →
      ∃ upd' rng'',
        ts.foldl (categoricalValStep (uniqFirst values) srs) (Except.ok (upd, rng)) =
          Except.ok (upd', rng'') ∧
        upd'.length = srs.length ∧ rng''.WF ∧
        (∀ j, j < srs.length →
          ((srs.getD j [] ∈ done ++ ts → ∃ c', upd'.getD j none = some c' ∧
              c' ∈ uniqFirst values ∧ c' ≠ srs.getD j []) ∧
           (srs.getD j [] ∉ done ++ ts → upd'.getD j none = none))) := by
  intro ts
  induction ts with
  | nil =>
    intro done _ upd rng hlen hwf hrow
    exact ⟨upd, rng, rfl, hlen, hwf, by simpa using hrow⟩
  | cons v vt ih =>
    intro done heq upd rng hlen hwf hrow
    have hvmem : v ∈ uniqFirst values := by
      rw [heq]
      exact List.mem_append.mpr (Or.inr (List.mem_cons_self v vt))
    have hplainv : PlainStr v := hplain v (mem_uniqFirst.mp hvmem)
    have hvdone : v ∉ done := by
      have hnd := nodup_uniqFirst values
      rw [heq, List.nodup_append] at hnd
      exact fun hc => hnd.2.2 hc (List.mem_cons_self v vt)
    have hmasklen : (srs.map (reFullmatch v)).length = srs.length := List.length_map _ _
    have hmaskj : ∀ j, j < srs.length →
        (srs.map (reFullmatch v)).getD j false = reFullmatch v (srs.getD j []) :=
      fun j hj => map_getD srs j hj
    rw [List.foldl_cons]
    by_cases hcnt : (srs.map (reFullmatch v)).countP id = 0
    · -- no row matches this category value
      have hstep : categoricalValStep (uniqFirst values) srs (Except.ok (upd, rng)) v =
          Except.ok (upd, rng) := by
        simp only [categoricalValStep]
        rw [if_pos hcnt]
      rw [hstep]
      have hnomatch : ∀ j, j < srs.length → srs.getD j [] ≠ v := by
        intro j hj hc
        have hmem : (srs.map (reFullmatch v)).getD j false ∈ srs.map (reFullmatch v) := by
          rw [List.getD_eq_getElem _ _ (by omega)]
          exact List.getElem_mem (by omega)
        have := List.countP_eq_zero.mp hcnt _ hmem
        rw [hmaskj j hj, (reFullmatch_plain hplainv).mpr hc.symm] at this
        simp at this
      have heq' : uniqFirst values = (done ++ [v]) ++ vt := by
        rw [heq, List.append_assoc]
        rfl
      have hrow' : ∀ j, j < srs.length →
          ((srs.getD j [] ∈ done ++ [v] → ∃ c', upd.getD j none = some c' ∧
              c' ∈ uniqFirst values ∧ c' ≠ srs.getD j []) ∧
           (srs.getD j [] ∉ done ++ [v] → upd.getD j none = none)) := by
        intro j hj
        constructor
        · intro hmem
          rcases List.mem_append.mp hmem with h | h
          · exact (hrow j hj).1 h
          · exact absurd (List.mem_singleton.mp h) (hnomatch j hj)
        · intro hnmem
          exact (hrow j hj).2 (fun hc => hnmem (List.mem_append.mpr (Or.inl hc)))
      have := ih (done ++ [v]) heq' upd rng hlen hwf hrow'
      simpa [List.append_assoc] using this
    · -- at least one row matches: draws from the other categories
      have hone : setDiff1d (uniqFirst values) v ≠ [] :=
        setDiff1d_ne_nil (nodup_uniqFirst values) h2 v
      have hstep : categoricalValStep (uniqFirst values) srs (Except.ok (upd, rng)) v =
          Except.ok (assignCatDraws (setDiff1d (uniqFirst values) v)
            (srs.map (reFullmatch v)) upd rng) := by
        simp only [categoricalValStep]
        rw [if_neg hcnt, if_neg hone]
      rw [hstep]
      obtain ⟨hlen1, hwf1, hp1⟩ := assignCatDraws_spec _ hone (srs.map (reFullmatch v))
        upd rng hwf (by omega)
      have heq' : uniqFirst values = (done ++ [v]) ++ vt := by
        rw [heq, List.append_assoc]
        rfl
      have hrow' : ∀ j, j < srs.length →
          ((srs.getD j [] ∈ done ++ [v] →
            ∃ c', (assignCatDraws (setDiff1d (uniqFirst values) v)
              (srs.map (reFullmatch v)) upd rng).1.getD j none = some c' ∧
              c' ∈ uniqFirst values ∧ c' ≠ srs.getD j []) ∧
           (srs.getD j [] ∉ done ++ [v] →
            (assignCatDraws (setDiff1d (uniqFirst values) v)
              (srs.map (reFullmatch v)) upd rng).1.getD j none = none)) := by
        intro j hj
        obtain ⟨hptrue, hpfalse⟩ := hp1 j (by omega)
        constructor
        · intro hmem
          rcases List.mem_append.mp hmem with h | h
          · -- row value among the earlier categories: this mask is false
            have hne : srs.getD j [] ≠ v := by
              intro hc
              exact hvdone (hc ▸ h)
            have hmfalse : (srs.map (reFullmatch v)).getD j false = false := by
              rw [hmaskj j hj]
              by_contra hc
              have : reFullmatch v (srs.getD j []) = true := by
                cases hb : reFullmatch v (srs.getD j [])
                · exact absurd hb hc
                · rfl
              exact hne ((reFullmatch_plain hplainv).mp this).symm
            rw [hpfalse hmfalse]
            exact (hrow j hj).1 h
          · -- row value IS this category value: fresh draw from the others
            have hv : srs.getD j [] = v := List.mem_singleton.mp h
            have hmtrue : (srs.map (reFullmatch v)).getD j false = true := by
              rw [hmaskj j hj]
              exact (reFullmatch_plain hplainv).mpr hv.symm
            obtain ⟨c', hc'mem, hc'⟩ := hptrue hmtrue
            obtain ⟨hc'uniq, hc'ne⟩ := mem_setDiff1d.mp hc'mem
            exact ⟨c', hc', hc'uniq, by rw [hv]; exact hc'ne⟩
        · intro hnmem
          have hne : srs.getD j [] ≠ v :=
            fun hc => hnmem (List.mem_append.mpr (Or.inr (by rw [hc]; exact List.mem_singleton_self v)))
          have hmfalse : (srs.map (reFullmatch v)).getD j false = false := by
            rw [hmaskj j hj]
            by_contra hc
            have : reFullmatch v (srs.getD j []) = true := by
              cases hb : reFullmatch v (srs.getD j [])
              · exact absurd hb hc
              · rfl
            exact hne ((reFullmatch_plain hplainv).mp this).symm
          rw [hpfalse hmfalse]
          exact (hrow j hj).2 (fun hc => hnmem (List.mem_append.mpr (Or.inl hc)))
      have := ih (done ++ [v]) heq' _ _ (by omega) hwf1 hrow'
      simpa [List.append_assoc] using this

/-- C7 (amended). `with_categorical_values` matches rows against the category
values by REGEX fullmatch; when every known category value is a plain string
(no regex metacharacters, so matching is exact string equality) and there are
at least two distinct known categories, the function succeeds and each row
equal to a known category is replaced by a known category different from the
row's value, while every row equal to no known category is left unchanged.
(With regex metacharacters the guarantee fails — see the counterexample —
and with a single known category a matching row raises numpy's empty-choice
error.) -/
theorem c7_categorical_resample (values : List Str) (srs : Series) (rng : Rng)
    (hwf : rng.WF) (hplain : ∀ v ∈ values, PlainStr v)
    (h2 : 2 ≤ (uniqFirst values).length) (j : Nat) (hj : j < srs.length) :
    ∃ out rng', corruptCategorical values srs rng = Except.ok (out, rng') ∧
      out.length = srs.length ∧
      (srs.getD j [] ∈ values →
        out.getD j [] ∈ values ∧ out.getD j [] ≠ srs.getD j []) ∧
      (srs.getD j [] ∉ values → out.getD j [] = srs.getD j []) := by
  have hinit : ∀ j', j' < srs.length →
      ((srs.getD j' [] ∈ ([] : List Str) → ∃ c',
          (List.replicate srs.length (none : Option Str)).getD j' none = some c' ∧
          c' ∈ uniqFirst values ∧ c' ≠ srs.getD j' []) ∧
       (srs.getD j' [] ∉ ([] : List Str) →
          (List.replicate srs.length (none : Option Str)).getD j' none = none)) := by
    intro j' _
    exact ⟨fun h => absurd h (List.not_mem_nil _), fun _ => getD_replicate_self⟩
  obtain ⟨upd', rng'', hfold, hlen', hwf', hrow⟩ :=
    catFold_inv values srs hplain h2 (uniqFirst values) [] rfl
      (List.replicate srs.length none) rng (List.length_replicate _ _) hwf hinit
  refine ⟨List.zipWith (fun (s : Str) (u : Option Str) => u.getD s) srs upd', rng'',
    ?_, ?_, ?_, ?_⟩
  · rw [corruptCategorical, hfold]
  · rw [List.length_zipWith]
    omega
  · intro hmem
    have hmem' : srs.getD j [] ∈ [] ++ uniqFirst values := by
      simpa using mem_uniqFirst.mpr hmem
    obtain ⟨c', hup, hcuniq, hcne⟩ := (hrow j hj).1 hmem'
    have hout : (List.zipWith (fun (s : Str) (u : Option Str) => u.getD s) srs upd').getD
        j [] = (upd'.getD j none).getD (srs.getD j []) := by
      exact zipWith_getD ([] : Str) (none : Option Str) ([] : Str) srs upd' j hj (by omega)
    rw [hout, hup]
    exact ⟨mem_uniqFirst.mp hcuniq, hcne⟩
  · intro hnmem
    have hnmem' : srs.getD j [] ∉ [] ++ uniqFirst values := by
      simpa using fun hc => hnmem (mem_uniqFirst.mp hc)
    have hup := (hrow j hj).2 hnmem'
    have hout : (List.zipWith (fun (s : Str) (u : Option Str) => u.getD s) srs upd').getD
        j [] = (upd'.getD j none).getD (srs.getD j []) := by
      exact zipWith_getD ([] : Str) (none : Option Str) ([] : Str) srs upd' j hj (by omega)
    rw [hout, hup]
    rfl

/-- Witness for C7 at categories `["a", "b"]` over the series `["a", "q"]`. -/
theorem c7_categorical_resample_witness :
    Rng.WF ⟨[]⟩ ∧ 2 ≤ (uniqFirst [['a'], ['b']]).length ∧
    ∃ out rng', corruptCategorical [['a'], ['b']] [['a'], ['q']] ⟨[]⟩ =
        Except.ok (out, rng') ∧
      out.length = 2 ∧
      (List.getD [['a'], ['q']] 0 [] ∈ [(['a'] : Str), ['b']] →
        out.getD 0 [] ∈ [(['a'] : Str), ['b']] ∧ out.getD 0 [] ≠ List.getD [['a'], ['q']] 0 []) ∧
      (List.getD [['a'], ['q']] 0 [] ∉ [(['a'] : Str), ['b']] →
        out.getD 0 [] = List.getD [['a'], ['q']] 0 []) := by
  have hwf : Rng.WF ⟨[]⟩ := fun v hv => absurd hv (List.not_mem_nil v)
  have hplain : ∀ v ∈ [(['a'] : Str), ['b']], PlainStr v := by
    unfold PlainStr
    decide
  exact ⟨hwf, by decide,
    c7_categorical_resample [['a'], ['b']] [['a'], ['q']] ⟨[]⟩ hwf hplain (by decide)
      0 (by decide)⟩
